import Mathlib

/-!
Verification of the CasperLabs execution engine against its
natural-language specification.

The definitions below are a shallow embedding of the Rust sources under
execution-engine/.  Bytes are modelled as natural numbers (< 256 for
well-formed data), machine integers as naturals with explicit bounds,
maps as association lists (sorted ones where the source uses a BTreeMap),
and fallible operations as Except values.  Cryptographic hash functions
(Blake2b) are taken as parameters: every theorem that mentions one holds
for an arbitrary hash function, hence in particular for Blake2b.

The file is organized as definitions first, theorems second.
-/

namespace CasperLabs

/-! # Definitions -/

instance {ε α : Type} [DecidableEq ε] [DecidableEq α] : DecidableEq (Except ε α)
  | .ok a, .ok b =>
    if h : a = b then isTrue (by rw [h]) else isFalse (by simp [h])
  | .ok _, .error _ => isFalse (by simp)
  | .error _, .ok _ => isFalse (by simp)
  | .error e, .error f =>
    if h : e = f then isTrue (by rw [h]) else isFalse (by simp [h])

/-! ## Byte-level primitives (bytesrepr)

Modelled from the spec: the bytesrepr module itself is not among the
provided sources, only its users are.  Per the spec, every datum has a
canonical little-endian byte encoding; variable-length fields are
length-prefixed by a 32-bit count.  Deserializers consume a prefix of the
byte stream and return the remainder, failing with EarlyEndOfStream when
the stream is too short and FormattingError on invalid data.
-/

/-- Modelled from the spec: the errors of the byte (de)serialization
layer, mirroring bytesrepr::Error. -/
inductive BrError
  | earlyEndOfStream
  | formattingError
  | leftOverBytes
  | outOfMemoryError
  deriving DecidableEq, Repr

/-- Modelled from the spec: size constant U8_SIZE of the encoding layer. -/
def U8_SIZE : Nat := 1

/-- Modelled from the spec: size constant U32_SIZE of the encoding layer. -/
def U32_SIZE : Nat := 4

/-- Modelled from the spec: size constant U64_SIZE of the encoding layer. -/
def U64_SIZE : Nat := 8

/-- Serialized size of a URef key (key.rs): count prefix, 32 address
bytes, discriminant byte and access-rights byte. -/
def UREF_SIZE : Nat := U32_SIZE + 32 + 1 + 1

/-- Largest value of a Rust u32. -/
def U32_MAX : Nat := 2 ^ 32 - 1

/-- Largest value of a Rust u64. -/
def U64_MAX : Nat := 2 ^ 64 - 1

/-- Modelled from the spec: little-endian encoding of a natural number in
w bytes (Rust to_le_bytes). -/
def leBytes : Nat → Nat → List Nat
  | 0, _ => []
  | w + 1, n => n % 256 :: leBytes w (n / 256)

/-- Modelled from the spec: read w little-endian bytes from the stream
into a natural number. -/
def readLE : Nat → List Nat → Except BrError (Nat × List Nat)
  | 0, bs => .ok (0, bs)
  | _ + 1, [] => .error .earlyEndOfStream
  | w + 1, b :: bs =>
    match readLE w bs with
    | .ok (n, rest) => .ok (b + 256 * n, rest)
    | .error e => .error e

/-- Modelled from the spec: read exactly n raw bytes from the stream. -/
def takeBytes : Nat → List Nat → Except BrError (List Nat × List Nat)
  | 0, bs => .ok ([], bs)
  | _ + 1, [] => .error .earlyEndOfStream
  | n + 1, b :: bs =>
    match takeBytes n bs with
    | .ok (pre, rest) => .ok (b :: pre, rest)
    | .error e => .error e

/-- Modelled from the spec: encoding of a u32 (Rust u32::to_bytes), 4
little-endian bytes. -/
def u32ToBytes (n : Nat) : List Nat := leBytes 4 n

/-- Modelled from the spec: encoding of a u64 (Rust u64::to_bytes), 8
little-endian bytes. -/
def u64ToBytes (n : Nat) : List Nat := leBytes 8 n

/-- Modelled from the spec: decoding of a u32. -/
def readU32 (bs : List Nat) : Except BrError (Nat × List Nat) := readLE 4 bs

/-- Modelled from the spec: decoding of a u64. -/
def readU64 (bs : List Nat) : Except BrError (Nat × List Nat) := readLE 8 bs

/-- Modelled from the spec: read a single byte (Rust u8::from_bytes). -/
def readU8 : List Nat → Except BrError (Nat × List Nat)
  | [] => .error .earlyEndOfStream
  | b :: bs => .ok (b, bs)

/-- Modelled from the spec: read a length-prefixed byte string (Rust Vec
of u8, or String as its UTF-8 bytes; bytesrepr is absent from the
sources).  On data produced by the encoder the UTF-8 re-validation that
String::from_bytes performs always succeeds, so it is not re-modelled. -/
def readStr (bs : List Nat) : Except BrError (List Nat × List Nat) := do
  let (n, r) ← readU32 bs
  takeBytes n r

/-- Modelled from the spec: encode a length-prefixed byte string (Vec of
u8 / String to_bytes). -/
def strToBytes (s : List Nat) : List Nat := u32ToBytes s.length ++ s

/-- Modelled from the spec: read a fixed 32-byte array (Rust array of 32
u8), a 32-bit count that must equal 32, then the raw bytes. -/
def readFixed32 (bs : List Nat) : Except BrError (List Nat × List Nat) := do
  let (n, r) ← readU32 bs
  if n = 32 then takeBytes 32 r else .error .formattingError

/-- Minimal little-endian byte representation of a natural number: the
buffer of the uint types with trailing zero bytes stripped
(types/src/uint.rs, ToBytes). -/
def leBytesMin (n : Nat) : List Nat :=
  if h : n = 0 then [] else n % 256 :: leBytesMin (n / 256)
termination_by n
decreasing_by exact Nat.div_lt_self (Nat.pos_of_ne_zero h) (by norm_num)

/-- Value of a little-endian byte list (from_little_endian). -/
def beFromLE : List Nat → Nat
  | [] => 0
  | b :: t => b + 256 * beFromLE t

/-- Encoding of U128, U256 and U512 (types/src/uint.rs): the number of
significant bytes as a single byte, then those bytes little-endian. -/
def uintToBytes (n : Nat) : List Nat :=
  let non_zero_bytes := leBytesMin n
  non_zero_bytes.length :: non_zero_bytes

/-- Decoding of U128 or U256 or U512 with the given buffer width: the count
byte must not exceed the width (else FormattingError), then that many raw
bytes are consumed. -/
def readUint (total_bytes : Nat) (bs : List Nat) : Except BrError (Nat × List Nat) := do
  let (num_bytes, rem) ← readU8 bs
  if num_bytes > total_bytes then .error .formattingError
  else do
    let (value, rem2) ← takeBytes num_bytes rem
    .ok (beFromLE value, rem2)

/-! ## Keys and access rights (common/src/key.rs) -/

/-- Access rights bit constant READ from the bitflags block in key.rs. -/
def READ : Nat := 1

/-- Bit constant WRITE from key.rs. -/
def WRITE : Nat := 2

/-- Bit constant ADD from key.rs. -/
def ADD : Nat := 4

/-- Combination READ_WRITE from key.rs. -/
def READ_WRITE : Nat := 3

/-- Combination READ_ADD_WRITE from key.rs. -/
def READ_ADD_WRITE : Nat := 7

/-- AccessRights::is_readable: self AND READ == READ. -/
def rightsIsReadable (r : Nat) : Bool := Nat.land r READ == READ

/-- AccessRights::is_writeable: self AND WRITE == WRITE. -/
def rightsIsWriteable (r : Nat) : Bool := Nat.land r WRITE == WRITE

/-- AccessRights::is_addable: self AND ADD == ADD. -/
def rightsIsAddable (r : Nat) : Bool := Nat.land r ADD == ADD

/-- The Key enum of common/src/key.rs: Account carries a 20-byte address,
Hash a 32-byte digest, URef a 32-byte address plus an access-rights mask. -/
inductive Key
  | account (addr : List Nat)
  | hash (digest : List Nat)
  | uref (addr : List Nat) (rights : Nat)
  deriving DecidableEq, Repr

/-- Bytes are naturals below 256. -/
def byteOk (b : Nat) : Bool := decide (b < 256)

/-- Well-formedness: the datum corresponds to an actual Rust value of type
Key (fixed array lengths, bytes below 256, a valid bitflags mask). -/
def Key.wf : Key → Bool
  | .account addr => addr.length == 20 && addr.all byteOk
  | .hash digest => digest.length == 32 && digest.all byteOk
  | .uref addr rights => addr.length == 32 && addr.all byteOk && decide (rights < 8)

/-- Canonical encoding of a Key, from the ToBytes impl in key.rs: a
discriminant byte, then the address bytes (length-prefixed, as the source
serializes them), and for URef the access-rights byte. -/
def keyToBytes : Key → List Nat
  | .account addr => 0 :: (u32ToBytes 20 ++ addr)
  | .hash digest => 1 :: strToBytes digest
  | .uref addr rights => 2 :: (strToBytes addr ++ [rights])

/-- Decoding of the AccessRights byte: AccessRights::from_bits accepts
exactly the masks made of the three defined bits. -/
def readAccessRights (bs : List Nat) : Except BrError (Nat × List Nat) := do
  let (b, r) ← readU8 bs
  if b < 8 then .ok (b, r) else .error .formattingError

/-- Decoding of a Key, from the FromBytes impl in key.rs. -/
def keyFromBytes (bs : List Nat) : Except BrError (Key × List Nat) := do
  let (id, rest) ← readU8 bs
  match id with
  | 0 => do
    let (addr, rem) ← readStr rest
    if addr.length = 20 then .ok (.account addr, rem) else .error .formattingError
  | 1 => do
    let (digest, rem) ← readFixed32 rest
    .ok (.hash digest, rem)
  | 2 => do
    let (addr, rem) ← readFixed32 rest
    let (rights, rem2) ← readAccessRights rem
    .ok (.uref addr rights, rem2)
  | _ => .error .formattingError

/-! ## Sorted association-list maps (Rust BTreeMap)

A BTreeMap is modelled as an association list sorted strictly by key.
Insertion keeps the order; serialization iterates in order; the map
deserializer folds insertions, which on sorted distinct input reproduces
the input list.
-/

/-- Byte-lexicographic strict order on byte strings (Rust String and array
Ord). -/
def listLtB : List Nat → List Nat → Bool
  | [], [] => false
  | [], _ :: _ => true
  | _ :: _, [] => false
  | a :: x, b :: y => if a < b then true else if b < a then false else listLtB x y

/-- Insert into a sorted association list, replacing an equal key. -/
def insertMapBy {κ α : Type} [DecidableEq κ] (lt : κ → κ → Bool) (k : κ) (v : α) :
    List (κ × α) → List (κ × α)
  | [] => [(k, v)]
  | (k2, v2) :: t =>
    if lt k k2 then (k, v) :: (k2, v2) :: t
    else if k = k2 then (k, v) :: t
    else (k2, v2) :: insertMapBy lt k v t

/-- Build a sorted map from a pair list by repeated insertion (the BTreeMap
collect of a deserializer). -/
def fromPairsBy {κ α : Type} [DecidableEq κ] (lt : κ → κ → Bool)
    (l : List (κ × α)) : List (κ × α) :=
  l.foldl (fun m p => insertMapBy lt p.1 p.2 m) []

/-- Strict sortedness of adjacent keys. -/
def mapSortedBy {κ α : Type} (lt : κ → κ → Bool) : List (κ × α) → Bool
  | [] => true
  | [_] => true
  | p :: q :: t => lt p.1 q.1 && mapSortedBy lt (q :: t)

/-- Modelled from the spec: encoding of a BTreeMap from String to Key —
32-bit entry count, then each entry as the string followed by the key, in
map order (the impl lives in the absent bytesrepr module). -/
def mapToBytes (m : List (List Nat × Key)) : List Nat :=
  u32ToBytes m.length ++ (m.map (fun p => strToBytes p.1 ++ keyToBytes p.2)).flatten

/-- Modelled from the spec: read n string-to-key entries. -/
def readPairs : Nat → List Nat → Except BrError (List (List Nat × Key) × List Nat)
  | 0, bs => .ok ([], bs)
  | n + 1, bs => do
    let (s, r1) ← readStr bs
    let (k, r2) ← keyFromBytes r1
    let (t, r3) ← readPairs n r2
    .ok ((s, k) :: t, r3)

/-- Modelled from the spec: decoding of a BTreeMap from String to Key —
the count, the entries, collected into a map. -/
def readMap (bs : List Nat) : Except BrError (List (List Nat × Key) × List Nat) := do
  let (n, r) ← readU32 bs
  let (l, r2) ← readPairs n r
  .ok (fromPairsBy listLtB l, r2)

/-! ## Account and Contract (common/src/value/account.rs, and the Contract
record described in the spec) -/

/-- The Account struct of common/src/value/account.rs: public key, nonce
and named keys. -/
structure Account where
  public_key : List Nat
  nonce : Nat
  known_urefs : List (List Nat × Key)
  deriving DecidableEq, Repr

/-- KEY_SIZE constant of account.rs. -/
def ACCOUNT_KEY_SIZE : Nat := 32

/-- Account::to_bytes: guard against oversize named-key maps, then the
concatenated fields. -/
def accountToBytes (a : Account) : Except BrError (List Nat) :=
  if UREF_SIZE * a.known_urefs.length ≥ U32_MAX - ACCOUNT_KEY_SIZE - U64_SIZE
  then .error .outOfMemoryError
  else .ok (strToBytes a.public_key ++ u64ToBytes a.nonce ++ mapToBytes a.known_urefs)

/-- Account::from_bytes. -/
def accountFromBytes (bs : List Nat) : Except BrError (Account × List Nat) := do
  let (pk, r1) ← readFixed32 bs
  let (nonce, r2) ← readU64 r1
  let (m, r3) ← readMap r2
  .ok (⟨pk, nonce, m⟩, r3)

/-- Modelled from the spec: the Contract record — immutable bytes, a
named-key map, and a protocol version (the contract module of
contract-ffi is not among the provided sources). -/
structure Contract where
  bytes : List Nat
  named_keys : List (List Nat × Key)
  protocol_version : Nat
  deriving DecidableEq, Repr

/-- Modelled from the spec: Contract::to_bytes — the three fields in
order, each in its canonical encoding. -/
def contractToBytes (c : Contract) : List Nat :=
  strToBytes c.bytes ++ mapToBytes c.named_keys ++ u64ToBytes c.protocol_version

/-- Modelled from the spec: Contract::from_bytes. -/
def contractFromBytes (bs : List Nat) : Except BrError (Contract × List Nat) := do
  let (b, r1) ← readStr bs
  let (m, r2) ← readMap r1
  let (pv, r3) ← readU64 r2
  .ok (⟨b, m, pv⟩, r3)

/-! ## Value (contract-ffi/src/value/mod.rs) -/

/-- The Value enum: the tagged union of storable data.  The source file
refers to the Key type of its own crate; the Key encoding embedded here is
the one present under the sources (common/src/key.rs). -/
inductive Value
  | int32 (bits : Nat)
  | uint64 (n : Nat)
  | uint128 (n : Nat)
  | uint256 (n : Nat)
  | uint512 (n : Nat)
  | byteArray (arr : List Nat)
  | listInt32 (arr : List Nat)
  | string (s : List Nat)
  | listString (arr : List (List Nat))
  | namedKey (name : List Nat) (k : Key)
  | key (k : Key)
  | account (a : Account)
  | contract (c : Contract)
  | unit
  deriving DecidableEq, Repr

/-- Well-formedness of a byte string: bytes below 256 and length within
the 32-bit count prefix. -/
def strWf (s : List Nat) : Bool := s.all byteOk && decide (s.length < 2 ^ 32)

/-- Well-formedness of a BTreeMap from String to Key. -/
def mapWf (m : List (List Nat × Key)) : Bool :=
  m.all (fun p => strWf p.1 && p.2.wf) && mapSortedBy listLtB m
    && decide (m.length < 2 ^ 32)

/-- Well-formedness of an Account. -/
def Account.wf (a : Account) : Bool :=
  a.public_key.length == 32 && a.public_key.all byteOk
    && decide (a.nonce < 2 ^ 64) && mapWf a.known_urefs

/-- Well-formedness of a Contract. -/
def Contract.wf (c : Contract) : Bool :=
  strWf c.bytes && mapWf c.named_keys && decide (c.protocol_version < 2 ^ 64)

/-- Well-formedness of a Value: each numeric payload within its machine
width, byte strings valid, map fields sorted, key fields well-formed. -/
def Value.wf : Value → Bool
  | .int32 bits => decide (bits < 2 ^ 32)
  | .uint64 n => decide (n < 2 ^ 64)
  | .uint128 n => decide (n < 2 ^ 128)
  | .uint256 n => decide (n < 2 ^ 256)
  | .uint512 n => decide (n < 2 ^ 512)
  | .byteArray arr => strWf arr
  | .listInt32 arr => arr.all (fun i => decide (i < 2 ^ 32)) && decide (arr.length < 2 ^ 32)
  | .string s => strWf s
  | .listString arr => arr.all strWf && decide (arr.length < 2 ^ 32)
  | .namedKey n k => strWf n && k.wf
  | .key k => k.wf
  | .account a => a.wf
  | .contract c => c.wf
  | .unit => true

/-- Encoding of a Vec of i32: count then each element in 4 little-endian
bytes of its two's-complement bit pattern. -/
def vecI32ToBytes (arr : List Nat) : List Nat :=
  u32ToBytes arr.length ++ (arr.map u32ToBytes).flatten

/-- Encoding of a Vec of String. -/
def vecStrToBytes (arr : List (List Nat)) : List Nat :=
  u32ToBytes arr.length ++ (arr.map strToBytes).flatten

/-- Value::to_bytes, translated arm by arm from contract-ffi, including
every oversize guard the source performs before building the buffer. -/
def valueToBytes : Value → Except BrError (List Nat)
  | .int32 bits => .ok (0 :: u32ToBytes bits)
  | .uint128 u => .ok (8 :: uintToBytes u)
  | .uint256 u => .ok (9 :: uintToBytes u)
  | .uint512 u => .ok (10 :: uintToBytes u)
  | .byteArray arr =>
    if arr.length ≥ U32_MAX - U8_SIZE - U32_SIZE then .error .outOfMemoryError
    else .ok (1 :: strToBytes arr)
  | .listInt32 arr =>
    if arr.length * 4 ≥ U32_MAX - U8_SIZE - U32_SIZE then .error .outOfMemoryError
    else .ok (2 :: vecI32ToBytes arr)
  | .string s =>
    if s.length ≥ U32_MAX - U8_SIZE - U32_SIZE then .error .outOfMemoryError
    else .ok (3 :: strToBytes s)
  | .account a => do
    let bytes ← accountToBytes a
    if bytes.length ≥ U32_MAX - 1 then .error .outOfMemoryError
    else .ok (4 :: bytes)
  | .contract c => .ok (5 :: contractToBytes c)
  | .namedKey n k =>
    if n.length + UREF_SIZE ≥ U32_MAX - U32_SIZE - U8_SIZE then .error .outOfMemoryError
    else .ok (6 :: (strToBytes n ++ keyToBytes k))
  | .listString arr =>
    let bytes := vecStrToBytes arr
    if bytes.length ≥ U32_MAX - 1 then .error .outOfMemoryError
    else .ok (7 :: bytes)
  | .key k => .ok (11 :: keyToBytes k)
  | .unit => .ok [12]
  | .uint64 num => .ok (13 :: u64ToBytes num)

/-- Read n i32 values. -/
def readI32List : Nat → List Nat → Except BrError (List Nat × List Nat)
  | 0, bs => .ok ([], bs)
  | n + 1, bs => do
    let (i, r1) ← readU32 bs
    let (t, r2) ← readI32List n r1
    .ok (i :: t, r2)

/-- Read n strings. -/
def readStrList : Nat → List Nat → Except BrError (List (List Nat) × List Nat)
  | 0, bs => .ok ([], bs)
  | n + 1, bs => do
    let (s, r1) ← readStr bs
    let (t, r2) ← readStrList n r1
    .ok (s :: t, r2)

/-- Value::from_bytes, translated arm by arm from contract-ffi. -/
def valueFromBytes (bs : List Nat) : Except BrError (Value × List Nat) := do
  let (id, rest) ← readU8 bs
  match id with
  | 0 => do
    let (i, rem) ← readU32 rest
    .ok (.int32 i, rem)
  | 1 => do
    let (arr, rem) ← readStr rest
    .ok (.byteArray arr, rem)
  | 2 => do
    let (n, r1) ← readU32 rest
    let (arr, rem) ← readI32List n r1
    .ok (.listInt32 arr, rem)
  | 3 => do
    let (s, rem) ← readStr rest
    .ok (.string s, rem)
  | 4 => do
    let (a, rem) ← accountFromBytes rest
    .ok (.account a, rem)
  | 5 => do
    let (c, rem) ← contractFromBytes rest
    .ok (.contract c, rem)
  | 6 => do
    let (name, rem1) ← readStr rest
    let (k, rem2) ← keyFromBytes rem1
    .ok (.namedKey name k, rem2)
  | 7 => do
    let (n, r1) ← readU32 rest
    let (arr, rem) ← readStrList n r1
    .ok (.listString arr, rem)
  | 8 => do
    let (u, rem) ← readUint 16 rest
    .ok (.uint128 u, rem)
  | 9 => do
    let (u, rem) ← readUint 32 rest
    .ok (.uint256 u, rem)
  | 10 => do
    let (u, rem) ← readUint 64 rest
    .ok (.uint512 u, rem)
  | 11 => do
    let (k, rem) ← keyFromBytes rest
    .ok (.key k, rem)
  | 12 => .ok (.unit, rest)
  | 13 => do
    let (num, rem) ← readU64 rest
    .ok (.uint64 num, rem)
  | _ => .error .formattingError

/-! ## Transforms and the in-memory global state
(storage/src/global_state/inmem.rs)

The Transform type and its apply function live in the absent
storage/src/transform.rs and are modelled from the spec's transform
algebra; the commit loop below is translated from InMemHist::commit,
which is present.  The BTreeMap holding a state snapshot is a sorted
association list; the iteration order of the effects HashMap is
arbitrary, so commit receives the effects as a list standing for
whatever order the HashMap yields.
-/

/-- Rust derived Ord on Key: variants in declaration order, contents
lexicographic.  Encoded by ranking each key as a byte list whose
lexicographic order coincides with the derived order. -/
def keyRank : Key → List Nat
  | .account addr => 0 :: addr
  | .hash digest => 1 :: digest
  | .uref addr rights => 2 :: (addr ++ [rights])

/-- Strict order on keys via their rank. -/
def keyLtB (k1 k2 : Key) : Bool := listLtB (keyRank k1) (keyRank k2)

/-- Errors of Transform::apply. -/
inductive TransformError
  | typeMismatch
  | overflow
  deriving DecidableEq, Repr

/-- Modelled from the spec: the Transform type — Identity, Write,
one Add per numeric width, AddKeys, and Failure. -/
inductive Transform
  | identity
  | write (v : Value)
  | addInt32 (i : Nat)
  | addUInt64 (i : Nat)
  | addUInt128 (i : Nat)
  | addUInt256 (i : Nat)
  | addUInt512 (i : Nat)
  | addKeys (m : List (List Nat × Key))
  | failure
  deriving DecidableEq, Repr

/-- Whether a transform is a Write. -/
def Transform.isWrite : Transform → Bool
  | .write _ => true
  | _ => false

/-- Modelled from the spec: Transform::apply — Identity returns the stored
value, Write replaces it, a numeric add requires the matching numeric
variant and reports Overflow past the machine width (payloads are bit
patterns, so the check is at the width bound), AddKeys extends the
named-key map of an Account or Contract with later keys overriding, and
anything else is a type mismatch. -/
def Transform.apply : Transform → Value → Except TransformError Value
  | .identity, v => .ok v
  | .write w, _ => .ok w
  | .addInt32 i, .int32 j =>
    if i + j < 2 ^ 32 then .ok (.int32 (i + j)) else .error .overflow
  | .addInt32 _, _ => .error .typeMismatch
  | .addUInt64 i, .uint64 j =>
    if i + j < 2 ^ 64 then .ok (.uint64 (i + j)) else .error .overflow
  | .addUInt64 _, _ => .error .typeMismatch
  | .addUInt128 i, .uint128 j =>
    if i + j < 2 ^ 128 then .ok (.uint128 (i + j)) else .error .overflow
  | .addUInt128 _, _ => .error .typeMismatch
  | .addUInt256 i, .uint256 j =>
    if i + j < 2 ^ 256 then .ok (.uint256 (i + j)) else .error .overflow
  | .addUInt256 _, _ => .error .typeMismatch
  | .addUInt512 i, .uint512 j =>
    if i + j < 2 ^ 512 then .ok (.uint512 (i + j)) else .error .overflow
  | .addUInt512 _, _ => .error .typeMismatch
  | .addKeys m, .account a =>
    .ok (.account { a with known_urefs :=
      (m.foldl (fun acc p => insertMapBy listLtB p.1 p.2 acc) a.known_urefs) })
  | .addKeys m, .contract c =>
    .ok (.contract { c with named_keys :=
      (m.foldl (fun acc p => insertMapBy listLtB p.1 p.2 acc) c.named_keys) })
  | .addKeys _, _ => .error .typeMismatch
  | .failure, _ => .error .typeMismatch

/-- A snapshot of the global state: the BTreeMap from Key to Value as a
key-sorted association list. -/
abbrev GlobalState := List (Key × Value)

/-- Lookup in an association list by key. -/
def lookupKey {κ α : Type} [DecidableEq κ] (k : κ) : List (κ × α) → Option α
  | [] => none
  | (k2, v) :: t => if k2 = k then some v else lookupKey k t

/-- Remove the entry of a key from an association list (the removal half
of BTreeMap::remove). -/
def eraseKey {κ α : Type} [DecidableEq κ] (k : κ) : List (κ × α) → List (κ × α)
  | [] => []
  | (k2, v) :: t => if k2 = k then t else (k2, v) :: eraseKey k t

/-- Sortedness of an association list, as the pairwise strict-order
property a BTreeMap maintains. -/
def SortedMap {κ α : Type} (lt : κ → κ → Bool) (m : List (κ × α)) : Prop :=
  m.Pairwise (fun p q => lt p.1 q.1 = true)

/-- CommitResult of the storage layer (the variants used by
InMemHist::commit; Success carries the new root hash). -/
inductive CommitResult
  | success (hash : Nat)
  | rootNotFound
  | keyNotFound (k : Key)
  | typeMismatch
  | overflow
  deriving DecidableEq, Repr

/-- Outcome of one loop iteration of InMemHist::commit on the current
value of a key: the value to store, or the early-returned CommitResult. -/
def stepRes (k : Key) (t : Transform) : Option Value → Except CommitResult Value
  | none =>
    match t with
    | .write v => .ok v
    | _ => .error (.keyNotFound k)
  | some curr =>
    match t.apply curr with
    | .ok new_value => .ok new_value
    | .error .typeMismatch => .error .typeMismatch
    | .error .overflow => .error .overflow

/-- One loop iteration of InMemHist::commit: BTreeMap::remove fetches and
deletes the current entry, then the transform outcome is inserted back
(or the loop early-returns). -/
def commitStep (base : GlobalState) (k : Key) (t : Transform) :
    Except CommitResult GlobalState :=
  match stepRes k t (lookupKey k base) with
  | .ok v => .ok (insertMapBy keyLtB k v (eraseKey k base))
  | .error r => .error r

/-- The effects loop of InMemHist::commit over the iteration order the
effects HashMap happened to produce. -/
def commitLoop : GlobalState → List (Key × Transform) → Except CommitResult GlobalState
  | base, [] => .ok base
  | base, (k, t) :: rest =>
    match commitStep base k t with
    | .ok base2 => commitLoop base2 rest
    | .error r => .error r

/-- In-memory history: root hash to state snapshot (InMemHist). -/
structure InMemHist where
  history : List (Nat × GlobalState)
  deriving DecidableEq, Repr

/-- History lookup (checkout). -/
def histGet (h : InMemHist) (hash : Nat) : Option GlobalState :=
  lookupKey hash h.history

/-- InMemHist::commit.  The root hash of the final snapshot is computed by
get_root_hash, which serializes the BTreeMap in its sorted order and
hashes it with Blake2b; that hash is the parameter rootHashFn, a function
of the sorted final snapshot.  Returns the updated history and the
CommitResult. -/
def commit (rootHashFn : GlobalState → Nat) (hist : InMemHist) (prestate_hash : Nat)
    (effects : List (Key × Transform)) : InMemHist × CommitResult :=
  match histGet hist prestate_hash with
  | some base =>
    match commitLoop base effects with
    | .ok base2 =>
      let hash := rootHashFn base2
      ({ history := (hash, base2) :: hist.history }, .success hash)
    | .error r => (hist, r)
  | none => (hist, .rootNotFound)

/-- Insertion into a list sorted by an order, keeping duplicates (used
only to state the spec's sorted-iteration contract). -/
def insSorted {α : Type} (lt : α → α → Bool) (x : α) : List α → List α
  | [] => [x]
  | y :: t => if lt x y then x :: y :: t else y :: insSorted lt x t

/-- Insertion sort (used only to state the spec's sorted-iteration
contract). -/
def sortByLt {α : Type} (lt : α → α → Bool) (l : List α) : List α :=
  l.foldr (insSorted lt) []

/-- Commit as the spec's words describe it: iterate the effects in
ascending byte-lexicographic order of the canonical key encoding.  This
definition follows the claim, not the source, and exists to be compared
with the commit above. -/
def commitSortedSpec (rootHashFn : GlobalState → Nat) (hist : InMemHist)
    (prestate_hash : Nat) (effects : List (Key × Transform)) :
    InMemHist × CommitResult :=
  commit rootHashFn hist prestate_hash
    (sortByLt (fun p q => listLtB (keyToBytes p.1) (keyToBytes q.1)) effects)

/-! ## Runtime context capability checks (engine/src/runtime_context.rs) -/

/-- Execution-layer errors from engine/src/execution.rs (the variants the
embedded fragment can produce). -/
inductive ExecError
  | keyNotFound (k : Key)
  | typeMismatch
  | overflow
  | invalidAccess (required : Nat)
  | forgedReference (k : Key)
  | gasLimit
  deriving DecidableEq, Repr

/-- Known URefs of a runtime context: map from a 32-byte URef address to the
set of access rights granted for it (HashMap of HashSet in the source). -/
abbrev KnownURefs := List (List Nat × List Nat)

/-- Lookup in the known-URefs map. -/
def lookupAddr : KnownURefs → List Nat → Option (List Nat)
  | [], _ => none
  | (k, v) :: t, a => if k = a then some v else lookupAddr t a

/-- RuntimeContext::validate_key, translated clause by clause.  The source
maps the looked-up rights set through the superset test
(any right with right AND new_rights == new_rights), then maps the
resulting Bool to unit — discarding it — and finally turns None into
ForgedReference.  The discarded Bool is preserved here verbatim. -/
def validate_key (known_urefs : KnownURefs) (key : Key) : Except ExecError Unit :=
  match key with
  | .uref raw_addr new_rights =>
    ((((lookupAddr known_urefs raw_addr).map
        (fun known_rights =>
          known_rights.any (fun right => Nat.land right new_rights == new_rights))).map
      (fun _ => ())).elim
      (Except.error (ExecError.forgedReference key)))
      Except.ok
  | _ => .ok ()

/-- RuntimeContext::is_readable. -/
def is_readable (base_key key : Key) : Bool :=
  match key with
  | .account _ => base_key == key
  | .hash _ => true
  | .uref _ rights => rightsIsReadable rights

/-- RuntimeContext::is_addable. -/
def is_addable (base_key key : Key) : Bool :=
  match key with
  | .account _ => base_key == key
  | .hash _ => base_key == key
  | .uref _ rights => rightsIsAddable rights

/-- RuntimeContext::is_writeable. -/
def is_writeable (key : Key) : Bool :=
  match key with
  | .account _ => false
  | .hash _ => false
  | .uref _ rights => rightsIsWriteable rights

/-- RuntimeContext::validated_writeable. -/
def validated_writeable (key : Key) : Except ExecError Unit :=
  if is_writeable key then .ok () else .error (.invalidAccess WRITE)

/-- Key validation performed by RuntimeContext::write_gs before the write
reaches the tracking copy: validated_writeable chained with validate_key. -/
def write_gs_validate (known_urefs : KnownURefs) (key : Key) : Except ExecError Unit :=
  match validated_writeable key with
  | .ok () => validate_key known_urefs key
  | .error e => .error e

/-! ## Gas metering (engine/src/execution.rs, Runtime::charge_gas) -/

/-- Gas state of a runtime context: limit and counter, both u64. -/
structure GasCtx where
  gas_limit : Nat
  gas_counter : Nat
  deriving DecidableEq, Repr

/-- Rust u64::checked_add. -/
def u64CheckedAdd (a b : Nat) : Option Nat :=
  if a + b ≤ U64_MAX then some (a + b) else none

/-- Runtime::charge_gas: answers whether execution may continue, updating
the counter only on success. -/
def charge_gas (ctx : GasCtx) (amount : Nat) : Bool × GasCtx :=
  let prev := ctx.gas_counter
  match u64CheckedAdd prev amount with
  | none => (false, ctx)
  | some val =>
    if val > ctx.gas_limit then (false, ctx)
    else (true, { ctx with gas_counter := val })

/-- Runtime::gas: traps with GasLimit when charge_gas says stop. -/
def gas (ctx : GasCtx) (amount : Nat) : Except ExecError GasCtx :=
  match charge_gas ctx amount with
  | (true, ctx2) => .ok ctx2
  | (false, _) => .error .gasLimit

/-! ## Deploy RNG seeding (engine/src/execution.rs, create_rng)

The source allocates a VarBlake2b hasher, assembles the buffer
account_addr followed by the little-endian timestamp and nonce, and then
finalizes the hasher without ever feeding the buffer into it.  The Blake2b
function itself is a parameter here; the embedding records exactly which
input the hasher was given before finalization. -/

/-- Seed computed by create_rng.  The data buffer is assembled as in the
source; the hasher input at finalization time is the empty string because
no input call occurs between hasher creation and finalization. -/
def create_rng_seed (blake2b : List Nat → List Nat)
    (account_addr : List Nat) (timestamp nonce : Nat) : List Nat :=
  let data := account_addr ++ leBytes 8 timestamp ++ leBytes 8 nonce
  let hasherInput : List Nat := []
  let _unused := data
  blake2b hasherInput

/-! ## Sub-calls (engine/src/execution.rs, sub_call)

The TrackingCopy that parent and child share through an Rc of RefCell is
absent from the sources; it is modelled from the spec as the transforms
overlay of the per-deploy ExecutionEffect, threaded explicitly.  Because
the child context is built from context.state(), which hands out the
shared cell itself, the overlay the child finishes with is the parent's
overlay after the call in every branch. -/

/-- Modelled from the spec: the transforms overlay a tracking copy
accumulates — the commit-ready map from keys to transforms of an
ExecutionEffect (the TrackingCopy type itself is absent from the
sources). -/
abbrev EffectMap := List (Key × Transform)

/-- key_to_tuple of execution.rs: a URef key yields its address and
rights; the other key variants yield none. -/
def key_to_tuple : Key → Option (List Nat × Nat)
  | .uref raw_addr rights => some (raw_addr, rights)
  | .account _ => none
  | .hash _ => none

/-- Accumulate one access right into the entry of an address. -/
def insertRight : KnownURefs → List Nat → Nat → KnownURefs
  | [], addr, r => [(addr, [r])]
  | (a, rs) :: t, addr, r =>
    if a = addr then (a, rs ++ [r]) :: t else (a, rs) :: insertRight t addr r

/-- vec_key_rights_to_map of execution.rs: group URef keys by address,
accumulating the access rights seen per address.  (The source groups
adjacent runs with group_by before collecting into a HashMap; this
definition accumulates all rights of an address into one entry, which
coincides whenever equal addresses are adjacent.  Nothing proved below
depends on the difference.) -/
def vec_key_rights_to_map (input : List Key) : KnownURefs :=
  (input.filterMap key_to_tuple).foldl (fun m p => insertRight m p.1 p.2) []

/-- RuntimeContext::add_urefs: merge a rights map into the known-URefs
map. -/
def add_urefs (m new : KnownURefs) : KnownURefs :=
  new.foldl (fun acc p => p.2.foldl (fun a r => insertRight a p.1 r) acc) m

/-- The slice of a RuntimeContext observed across the sub_call boundary:
the shared tracking-copy overlay (context.state in the source), the
known-URefs map, the base key, and the gas limit and counter. -/
structure SubRuntimeCtx where
  tc : EffectMap
  known_urefs : KnownURefs
  base_key : Key
  gas_limit : Nat
  gas_counter : Nat
  deriving DecidableEq, Repr

/-- Outcome of the child's invoke_export of call: a normal return, a Ret
host error carrying urefs to merge into the caller (normal operation per
the source comment), or any other error — a revert or trap. -/
inductive InvokeOutcome
  | normal
  | ret (ret_urefs : List Key)
  | trap
  deriving DecidableEq, Repr

/-- sub_call, with the child's Wasm execution abstracted as childExec
acting on the child context sub_call builds.  The child receives the
parent's tracking copy itself — context.state() clones the shared Rc of
RefCell — so every branch keeps the child's final overlay as the
parent's; the remaining context fields, the gas counter among them, are
plain copies that are never written back.  refs stands for the values of
the named-keys map passed across the boundary.  Returns the parent
context after the call and whether sub_call returned Ok. -/
def sub_call (childExec : SubRuntimeCtx → SubRuntimeCtx × InvokeOutcome)
    (parent : SubRuntimeCtx) (key : Key) (refs extra_urefs : List Key) :
    SubRuntimeCtx × Bool :=
  let child_init : SubRuntimeCtx :=
    { tc := parent.tc
      known_urefs := vec_key_rights_to_map (refs ++ extra_urefs)
      base_key := key
      gas_limit := parent.gas_limit
      gas_counter := parent.gas_counter }
  match childExec child_init with
  | (child_final, InvokeOutcome.normal) =>
    ({ parent with tc := child_final.tc }, true)
  | (child_final, InvokeOutcome.ret ret_urefs) =>
    ({ parent with
        tc := child_final.tc
        known_urefs := add_urefs parent.known_urefs (vec_key_rights_to_map ret_urefs) },
      true)
  | (child_final, InvokeOutcome.trap) =>
    ({ parent with tc := child_final.tc }, false)

/-- A concrete child behavior: record one Write in the tracking copy it
was given, spend five units of gas, then trap. -/
def trapWriteChild : SubRuntimeCtx → SubRuntimeCtx × InvokeOutcome :=
  fun ctx =>
    ({ ctx with
        tc := ctx.tc ++ [(Key.hash (List.replicate 32 4), Transform.write (Value.int32 7))]
        gas_counter := ctx.gas_counter + 5 },
      InvokeOutcome.trap)

/-! ## The per-deploy pipeline (engine-core/src/engine_state/mod.rs, deploy)

The control flow of deploy is translated gate by gate from mod.rs; the
outcomes of its external interactions (state checkout, account and
contract lookups, module preprocessing, phase executions) are inputs,
collected in DeployIO in pipeline order.  The ExecutionResult type, its
builder and check_forced_transfer live in the absent
engine_state/execution_result.rs and are modelled from the spec's error
taxonomy and pipeline description. -/

/-- MAX_PAYMENT of engine_state/mod.rs, in motes. -/
def MAX_PAYMENT : Nat := 10000000

/-- CONV_RATE of engine_state/mod.rs: motes per unit of gas. -/
def CONV_RATE : Nat := 10

/-- Modelled from the spec: the engine_state error kinds the embedded
pipeline fragments construct (engine_state/error.rs is absent from the
sources); execFailure stands for any in-Wasm execution error carried out
of a phase. -/
inductive EngineError
  | authorization
  | deploymentAuthorizationFailure
  | invalidProtocolVersion
  | insufficientPayment
  | invalidUpgradeConfig
  | deployError
  | finalization
  | execFailure (code : Nat)
  deriving DecidableEq, Repr

/-- Modelled from the spec: an ExecutionResult — success or failure, each
carrying the commit-ready effect and the gas cost
(engine_state/execution_result.rs is absent from the sources). -/
inductive ExecutionResult
  | success (effect : EffectMap) (cost : Nat)
  | failure (error : EngineError) (effect : EffectMap) (cost : Nat)
  deriving DecidableEq, Repr

/-- ExecutionResult::is_failure. -/
def ExecutionResult.is_failure : ExecutionResult → Bool
  | .success _ _ => false
  | .failure _ _ _ => true

/-- ExecutionResult::cost. -/
def ExecutionResult.cost : ExecutionResult → Nat
  | .success _ c => c
  | .failure _ _ c => c

/-- The effect carried by an ExecutionResult. -/
def ExecutionResult.effect : ExecutionResult → EffectMap
  | .success e _ => e
  | .failure _ e _ => e

/-- Modelled from the spec: ExecutionResult::precondition_failure — a
failure reported without effects and with zero cost, no state mutation
having taken place. -/
def ExecutionResult.precondition_failure (e : EngineError) : ExecutionResult :=
  ExecutionResult.failure e [] 0

/-- Modelled from the spec: check_forced_transfer — a forced transfer is
due exactly when payment execution failed (the payment error is
reported), or the payment purse balance after payment is below the
payment cost converted to motes (InsufficientPayment is reported). -/
def check_forced_transfer (payment_result : ExecutionResult)
    (payment_purse_balance : Nat) : Option EngineError :=
  match payment_result with
  | .failure e _ _ => some e
  | .success _ cost =>
    if payment_purse_balance < cost * CONV_RATE then some EngineError.insufficientPayment
    else none

/-- Modelled from the spec: ExecutionResult::new_payment_code_error — the
forced transfer of MAX_PAYMENT motes from the account main purse to the
rewards purse, the only state change of a payment-phase failure, charged
at the gas equivalent of MAX_PAYMENT. -/
def new_payment_code_error (error : EngineError)
    (account_main_purse_balance : Nat)
    (account_main_purse_balance_key rewards_purse_balance_key : Key) :
    ExecutionResult :=
  ExecutionResult.failure error
    [(account_main_purse_balance_key,
        Transform.write (Value.uint512 (account_main_purse_balance - MAX_PAYMENT))),
      (rewards_purse_balance_key, Transform.addUInt512 MAX_PAYMENT)]
    (MAX_PAYMENT / CONV_RATE)

/-- Modelled from the spec: ExecutionResultBuilder::build — the deploy
result merges the three phase results: session effects are included only
on session success, a session error is reported as the deploy error, a
finalize failure is fatal with error Finalization, and the cost is the
payment cost plus the session cost. -/
def build_result (payment session finalize : ExecutionResult) : ExecutionResult :=
  let cost := payment.cost + session.cost
  match finalize with
  | ExecutionResult.failure _ _ _ =>
    ExecutionResult.failure EngineError.finalization [] cost
  | ExecutionResult.success fin_effect _ =>
    match session with
    | ExecutionResult.success session_effect _ =>
      ExecutionResult.success (payment.effect ++ session_effect ++ fin_effect) cost
    | ExecutionResult.failure e _ _ =>
      ExecutionResult.failure e (payment.effect ++ fin_effect) cost

/-- Outcome of running one phase's executor against the tracking copy it
was handed: the overlay that copy holds afterwards, and the phase's
ExecutionResult. -/
structure PhaseOutcome where
  tc : EffectMap
  result : ExecutionResult
  deriving DecidableEq, Repr

/-- The external interactions of deploy, in pipeline order.  Each Except
field is the outcome of the corresponding call in mod.rs (the missing
named-key cases inside the purse lookups are folded into their key's
error); the three phase executors are functions of the overlay held by
the tracking copy they receive. -/
structure DeployIO where
  checkout : Except EngineError (Option EffectMap)
  account_addr_valid : Bool
  get_account_ok : Bool
  can_authorize : Bool
  can_deploy_with : Bool
  session_module : Except EngineError Unit
  protocol_data : Except EngineError (Option Unit)
  mint_contract : Except EngineError Unit
  pos_contract : Except EngineError Unit
  rewards_purse_balance_key : Except EngineError Key
  main_purse_balance_key : Except EngineError Key
  main_purse_balance : Except EngineError Nat
  payment_module : Except EngineError Unit
  payment_exec : EffectMap → PhaseOutcome
  payment_purse_balance : Except EngineError Nat
  session_exec : EffectMap → PhaseOutcome
  finalize_setup : Except EngineError Unit
  finalize_exec : EffectMap → PhaseOutcome

/-- EngineState::deploy, gate by gate.  Precondition failures return a
cost-free, effect-free result; a missing root aborts through the Except
channel (RootNotFound).  After a successful payment with no forced
transfer due, the session runs on a fork of the post-payment copy; a
failed session's fork is discarded, so the finalize phase runs on a fresh
fork of the post-payment state; the builder merges the three phase
results. -/
def deploy (io : DeployIO) : Except Unit ExecutionResult :=
  match io.checkout with
  | Except.error e => .ok (ExecutionResult.precondition_failure e)
  | Except.ok none => .error ()
  | Except.ok (some tc0) =>
  if io.account_addr_valid = false then
    .ok (ExecutionResult.precondition_failure EngineError.authorization)
  else
  if io.get_account_ok = false then
    .ok (ExecutionResult.precondition_failure EngineError.authorization)
  else
  if io.can_authorize = false then
    .ok (ExecutionResult.precondition_failure EngineError.authorization)
  else
  if io.can_deploy_with = false then
    .ok (ExecutionResult.precondition_failure EngineError.deploymentAuthorizationFailure)
  else
  match io.session_module with
  | Except.error e => .ok (ExecutionResult.precondition_failure e)
  | Except.ok () =>
  match io.protocol_data with
  | Except.error e => .ok (ExecutionResult.precondition_failure e)
  | Except.ok none =>
    .ok (ExecutionResult.precondition_failure EngineError.invalidProtocolVersion)
  | Except.ok (some ()) =>
  match io.mint_contract with
  | Except.error e => .ok (ExecutionResult.precondition_failure e)
  | Except.ok () =>
  match io.pos_contract with
  | Except.error e => .ok (ExecutionResult.precondition_failure e)
  | Except.ok () =>
  match io.rewards_purse_balance_key with
  | Except.error e => .ok (ExecutionResult.precondition_failure e)
  | Except.ok rewards_key =>
  match io.main_purse_balance_key with
  | Except.error e => .ok (ExecutionResult.precondition_failure e)
  | Except.ok main_key =>
  match io.main_purse_balance with
  | Except.error e => .ok (ExecutionResult.precondition_failure e)
  | Except.ok balance =>
  if balance < MAX_PAYMENT then
    .ok (ExecutionResult.precondition_failure EngineError.insufficientPayment)
  else
  match io.payment_module with
  | Except.error e => .ok (ExecutionResult.precondition_failure e)
  | Except.ok () =>
  let pay := io.payment_exec tc0
  match io.payment_purse_balance with
  | Except.error e => .ok (ExecutionResult.precondition_failure e)
  | Except.ok payment_purse_balance =>
  match check_forced_transfer pay.result payment_purse_balance with
  | some err => .ok (new_payment_code_error err balance main_key rewards_key)
  | none =>
  let post_payment_tc := pay.tc
  let ses := io.session_exec post_payment_tc
  let post_session_tc := if ses.result.is_failure then post_payment_tc else ses.tc
  match io.finalize_setup with
  | Except.error e => .ok (ExecutionResult.precondition_failure e)
  | Except.ok () =>
  let fin := io.finalize_exec post_session_tc
  .ok (build_result pay.result ses.result fin.result)

/-- Key of the write recorded by the concrete payment phase below. -/
def payKey : Key := Key.hash (List.replicate 32 11)

/-- Key of the write recorded by the concrete session phase below. -/
def sesKey : Key := Key.hash (List.replicate 32 12)

/-- Key of the write recorded by the concrete finalize phase below. -/
def finKey : Key := Key.hash (List.replicate 32 13)

/-- A concrete deploy environment: every gate passes, the balance equals
MAX_PAYMENT, payment succeeds recording one write at cost 2, the session
fails with an execution error after recording one write at cost 3, and
finalize succeeds recording one entry at cost 1. -/
def sessionFailIO : DeployIO :=
  { checkout := Except.ok (some [])
    account_addr_valid := true
    get_account_ok := true
    can_authorize := true
    can_deploy_with := true
    session_module := Except.ok ()
    protocol_data := Except.ok (some ())
    mint_contract := Except.ok ()
    pos_contract := Except.ok ()
    rewards_purse_balance_key := Except.ok (Key.hash (List.replicate 32 1))
    main_purse_balance_key := Except.ok (Key.hash (List.replicate 32 2))
    main_purse_balance := Except.ok MAX_PAYMENT
    payment_module := Except.ok ()
    payment_exec := fun _ =>
      { tc := [(payKey, Transform.write (Value.int32 1))]
        result := ExecutionResult.success [(payKey, Transform.write (Value.int32 1))] 2 }
    payment_purse_balance := Except.ok 100
    session_exec := fun _ =>
      { tc := [(payKey, Transform.write (Value.int32 1)),
               (sesKey, Transform.write (Value.int32 2))]
        result := ExecutionResult.failure (EngineError.execFailure 65636)
          [(sesKey, Transform.write (Value.int32 2))] 3 }
    finalize_setup := Except.ok ()
    finalize_exec := fun _ =>
      { tc := [(payKey, Transform.write (Value.int32 1)), (finKey, Transform.identity)]
        result := ExecutionResult.success [(finKey, Transform.identity)] 1 } }

/-- A concrete deploy environment whose account main-purse balance is
MAX_PAYMENT minus one; the phase executors are present but never
consulted. -/
def lowBalanceIO : DeployIO :=
  { sessionFailIO with main_purse_balance := Except.ok (MAX_PAYMENT - 1) }

/-! ## Protocol upgrades (engine-core/src/engine_state/mod.rs, commit_upgrade)

The protocol-data store (protocol version to ProtocolData) is a
sub-database of the backing store; get reads it, put overwrites, here an
association list whose later entries shadow earlier ones under lookup.
The ProtocolVersion type and check_next_version live in a crate absent
from the sources and are modelled from the spec; ProtocolData is reduced
to the wasm-costs table the fragment reads, defaults and writes. -/

/-- A semver protocol version: major, minor, patch. -/
abbrev ProtocolVersion := Nat × Nat × Nat

/-- Modelled from the spec: the store of ProtocolData per protocol
version, reduced to the wasm-costs value. -/
abbrev ProtocolDataStore := List (ProtocolVersion × Nat)

/-- Modelled from the spec: the outcome of
ProtocolVersion::check_next_version — invalid succession, a minor or
patch increment, or a major bump (is_code_required answers true exactly
on the major bump, is_invalid exactly on invalid). -/
inductive VersionCheck
  | invalid
  | validMinorOrPatch
  | validMajor
  deriving DecidableEq, Repr

/-- Modelled from the spec: check_next_version — the new version must
strictly succeed the current one: a bump to the next major version is the
major case; with the major unchanged, a strict minor increase or a patch
increase at the same minor is the minor-or-patch case; everything else is
invalid. -/
def check_next_version (current next : ProtocolVersion) : VersionCheck :=
  if next.1 = current.1 + 1 then VersionCheck.validMajor
  else if next.1 = current.1 ∧
      (current.2.1 < next.2.1 ∨ (next.2.1 = current.2.1 ∧ current.2.2 < next.2.2)) then
    VersionCheck.validMinorOrPatch
  else VersionCheck.invalid

/-- Upgrade outcome: root not found at the pre-state hash, or success
(carrying, in the source, the committed root and effects). -/
inductive UpgradeOutcome
  | rootNotFound
  | success
  deriving DecidableEq, Repr

/-- EngineState::commit_upgrade, step by step: checkout at pre_state_hash
(absence yields RootNotFound), current ProtocolData required, version
succession check, wasm-costs defaulting (the Some/None defaulting of the
source is Option.getD), put_protocol_data — the write — and only then the
installer requirement; an installer, when present, runs with the outcome
given as installer_run, and commit_outcome stands for the trailing commit
of the effects.  Returns the protocol-data store after the call with the
result. -/
def commit_upgrade (store : ProtocolDataStore) (checkout : Option Unit)
    (current_version new_version : ProtocolVersion)
    (config_wasm_costs : Option Nat) (installer : Option (List Nat))
    (installer_run : Except EngineError Unit) (commit_outcome : UpgradeOutcome) :
    ProtocolDataStore × Except EngineError UpgradeOutcome :=
  match checkout with
  | none => (store, Except.ok UpgradeOutcome.rootNotFound)
  | some () =>
  match lookupKey current_version store with
  | none => (store, Except.error EngineError.invalidProtocolVersion)
  | some current_costs =>
  let upgrade_check_result := check_next_version current_version new_version
  if upgrade_check_result = VersionCheck.invalid then
    (store, Except.error EngineError.invalidProtocolVersion)
  else
  let new_wasm_costs := config_wasm_costs.getD current_costs
  let store2 := (new_version, new_wasm_costs) :: store
  match installer with
  | none =>
    if upgrade_check_result = VersionCheck.validMajor then
      (store2, Except.error EngineError.invalidUpgradeConfig)
    else (store2, Except.ok commit_outcome)
  | some _bytes =>
    match installer_run with
    | Except.error e => (store2, Except.error e)
    | Except.ok () => (store2, Except.ok commit_outcome)

/-! # Theorems -/

@[simp]
theorem exceptBind_ok {ε α β : Type} (a : α) (f : α → Except ε β) :
    (Except.ok (ε := ε) a >>= f) = f a := rfl

@[simp]
theorem exceptBind_error {ε α β : Type} (e : ε) (f : α → Except ε β) :
    ((Except.error e : Except ε α) >>= f) = Except.error e := rfl

@[simp]
theorem exceptPure_eq {ε α : Type} (a : α) :
    (pure a : Except ε α) = Except.ok a := rfl

/-! ## Byte-level round-trip lemmas -/

theorem readLE_append (w n : Nat) (rest : List Nat) (h : n < 256 ^ w) :
    readLE w (leBytes w n ++ rest) = .ok (n, rest) := by
  induction w generalizing n with
  | zero =>
    interval_cases n
    simp [readLE, leBytes]
  | succ w ih =>
    have hdiv : n / 256 < 256 ^ w := by
      rw [Nat.div_lt_iff_lt_mul (by norm_num)]
      calc n < 256 ^ (w + 1) := h
        _ = 256 ^ w * 256 := by ring
    simp [leBytes, readLE, ih (n / 256) hdiv, Nat.mod_add_div]

theorem takeBytes_append (bs rest : List Nat) :
    takeBytes bs.length (bs ++ rest) = .ok (bs, rest) := by
  induction bs with
  | nil => simp [takeBytes]
  | cons b t ih => simp [takeBytes, ih]

theorem readStr_append (s rest : List Nat) (h : s.length < 2 ^ 32) :
    readStr (strToBytes s ++ rest) = .ok (s, rest) := by
  have h1 : strToBytes s ++ rest = u32ToBytes s.length ++ (s ++ rest) := by
    simp [strToBytes]
  have h2 : readU32 (u32ToBytes s.length ++ (s ++ rest)) = .ok (s.length, s ++ rest) :=
    readLE_append 4 s.length (s ++ rest) (by simpa using h)
  simp [readStr, h1, h2, takeBytes_append]

theorem readFixed32_append (s rest : List Nat) (h : s.length = 32) :
    readFixed32 (strToBytes s ++ rest) = .ok (s, rest) := by
  have h1 : strToBytes s ++ rest = u32ToBytes s.length ++ (s ++ rest) := by
    simp [strToBytes]
  have h2 : readU32 (u32ToBytes s.length ++ (s ++ rest)) = .ok (s.length, s ++ rest) :=
    readLE_append 4 s.length (s ++ rest) (by rw [h]; norm_num)
  simp only [readFixed32, h1, h2, exceptBind_ok]
  rw [if_pos h, ← h]
  exact takeBytes_append s rest

theorem beFromLE_leBytesMin (n : Nat) : beFromLE (leBytesMin n) = n := by
  induction n using Nat.strong_induction_on with
  | _ n ih =>
    rw [leBytesMin]
    split_ifs with h
    · simp [h, beFromLE]
    · rw [beFromLE, ih (n / 256) (Nat.div_lt_self (Nat.pos_of_ne_zero h) (by norm_num)),
        Nat.mod_add_div]

theorem leBytesMin_length_le (w n : Nat) (h : n < 256 ^ w) :
    (leBytesMin n).length ≤ w := by
  induction w generalizing n with
  | zero =>
    interval_cases n
    rw [leBytesMin]
    simp
  | succ w ih =>
    rw [leBytesMin]
    split_ifs with h0
    · simp
    · have hdiv : n / 256 < 256 ^ w := by
        rw [Nat.div_lt_iff_lt_mul (by norm_num)]
        calc n < 256 ^ (w + 1) := h
          _ = 256 ^ w * 256 := by ring
      simpa using Nat.succ_le_succ (ih (n / 256) hdiv)

theorem readUint_append (total n : Nat) (rest : List Nat) (h : n < 256 ^ total) :
    readUint total (uintToBytes n ++ rest) = .ok (n, rest) := by
  have hlen := leBytesMin_length_le total n h
  have hshape : uintToBytes n ++ rest
      = (leBytesMin n).length :: (leBytesMin n ++ rest) := by
    simp [uintToBytes]
  rw [readUint, hshape]
  simp only [readU8, exceptBind_ok]
  rw [if_neg (by omega)]
  simp [takeBytes_append, beFromLE_leBytesMin]

/-! ## Sorted-map lemmas -/

theorem listLtB_irrefl (l : List Nat) : listLtB l l = false := by
  induction l with
  | nil => rfl
  | cons a t ih => simp [listLtB, ih]

theorem listLtB_asymm {x y : List Nat} (h : listLtB x y = true) :
    listLtB y x = false := by
  induction x generalizing y with
  | nil =>
    cases y with
    | nil => simp [listLtB] at h
    | cons b t => simp [listLtB]
  | cons a s ih =>
    cases y with
    | nil => simp [listLtB] at h
    | cons b t =>
      by_cases hab : a < b
      · have hba : ¬b < a := by omega
        simp [listLtB, hab, hba]
      · by_cases hba : b < a
        · simp [listLtB, hab, hba] at h
        · have hEq : a = b := by omega
          subst hEq
          simp only [listLtB, if_neg (Nat.lt_irrefl a)] at h ⊢
          exact ih h

theorem listLtB_trans {x y z : List Nat} (h1 : listLtB x y = true)
    (h2 : listLtB y z = true) : listLtB x z = true := by
  induction x generalizing y z with
  | nil =>
    cases y with
    | nil => simp [listLtB] at h1
    | cons b t =>
      cases z with
      | nil => simp [listLtB] at h2
      | cons c u => simp [listLtB]
  | cons a s ih =>
    cases y with
    | nil => simp [listLtB] at h1
    | cons b t =>
      cases z with
      | nil => simp [listLtB] at h2
      | cons c u =>
        simp only [listLtB] at h1 h2 ⊢
        rcases Nat.lt_trichotomy a b with hab | hab | hab
        · rcases Nat.lt_trichotomy b c with hbc | hbc | hbc
          · simp [Nat.lt_trans hab hbc]
          · subst hbc
            simp [hab]
          · rw [if_neg (by omega), if_pos hbc] at h2
            exact absurd h2 (by simp)
        · subst hab
          rw [if_neg (Nat.lt_irrefl a), if_neg (Nat.lt_irrefl a)] at h1
          rcases Nat.lt_trichotomy a c with hac | hac | hac
          · simp [hac]
          · subst hac
            rw [if_neg (Nat.lt_irrefl a), if_neg (Nat.lt_irrefl a)] at h2 ⊢
            exact ih h1 h2
          · rw [if_neg (by omega), if_pos hac] at h2
            exact absurd h2 (by simp)
        · rw [if_neg (by omega), if_pos hab] at h1
          exact absurd h1 (by simp)

theorem listLtB_ne {x y : List Nat} (h : listLtB x y = true) : x ≠ y := by
  intro hEq
  subst hEq
  rw [listLtB_irrefl] at h
  exact Bool.false_ne_true h

theorem insertMapBy_append {α : Type} (k : List Nat) (v : α)
    (m : List (List Nat × α)) (h : ∀ p ∈ m, listLtB p.1 k = true) :
    insertMapBy listLtB k v m = m ++ [(k, v)] := by
  induction m with
  | nil => rfl
  | cons p t ih =>
    obtain ⟨k2, v2⟩ := p
    have hlt : listLtB k2 k = true := h (k2, v2) (by simp)
    have h1 : listLtB k k2 = false := listLtB_asymm hlt
    have h2 : k ≠ k2 := fun hEq => listLtB_ne hlt hEq.symm
    simp only [insertMapBy, h1, if_neg h2, Bool.false_eq_true, if_false]
    rw [ih (fun q hq => h q (by simp [hq]))]
    simp

theorem mapSortedBy_tail {κ α : Type} (lt : κ → κ → Bool) (p : κ × α)
    (t : List (κ × α)) (h : mapSortedBy lt (p :: t) = true) :
    mapSortedBy lt t = true := by
  cases t with
  | nil => rfl
  | cons q u =>
    simp only [mapSortedBy, Bool.and_eq_true] at h
    exact h.2

theorem mapSorted_head_lt {α : Type} (p : List Nat × α) (t : List (List Nat × α))
    (h : mapSortedBy listLtB (p :: t) = true) :
    ∀ q ∈ t, listLtB p.1 q.1 = true := by
  induction t generalizing p with
  | nil => intro q hq; cases hq
  | cons q u ih =>
    simp only [mapSortedBy, Bool.and_eq_true] at h
    intro r hr
    rcases List.mem_cons.mp hr with hr | hr
    · subst hr; exact h.1
    · exact listLtB_trans h.1 (ih q h.2 r hr)

theorem foldl_insertMapBy {α : Type} (l acc : List (List Nat × α))
    (hacc : ∀ p ∈ acc, ∀ q ∈ l, listLtB p.1 q.1 = true)
    (hl : mapSortedBy listLtB l = true) :
    l.foldl (fun m p => insertMapBy listLtB p.1 p.2 m) acc = acc ++ l := by
  induction l generalizing acc with
  | nil => simp
  | cons p t ih =>
    obtain ⟨k, v⟩ := p
    have hins : insertMapBy listLtB k v acc = acc ++ [(k, v)] :=
      insertMapBy_append k v acc (fun q hq => hacc q hq (k, v) (by simp))
    simp only [List.foldl_cons, hins]
    rw [ih (acc ++ [(k, v)])]
    · simp
    · intro p2 hp2 q hq
      rcases List.mem_append.mp hp2 with hp2 | hp2
      · exact hacc p2 hp2 q (by simp [hq])
      · simp only [List.mem_singleton] at hp2
        subst hp2
        exact mapSorted_head_lt (k, v) t hl q hq
    · exact mapSortedBy_tail listLtB (k, v) t hl

theorem fromPairsBy_sorted {α : Type} (l : List (List Nat × α))
    (h : mapSortedBy listLtB l = true) : fromPairsBy listLtB l = l := by
  rw [fromPairsBy, foldl_insertMapBy l [] (by intro p hp; cases hp) h]
  rfl

theorem listLtB_total {x y : List Nat} (h : x ≠ y) :
    listLtB x y = true ∨ listLtB y x = true := by
  induction x generalizing y with
  | nil =>
    cases y with
    | nil => exact absurd rfl h
    | cons b t => left; simp [listLtB]
  | cons a s ih =>
    cases y with
    | nil => right; simp [listLtB]
    | cons b t =>
      rcases Nat.lt_trichotomy a b with hab | hab | hab
      · left
        simp [listLtB, hab]
      · subst hab
        have hst : s ≠ t := fun hEq => h (by rw [hEq])
        rcases ih hst with hlt | hlt
        · left
          simp [listLtB, Nat.lt_irrefl, hlt]
        · right
          simp [listLtB, Nat.lt_irrefl, hlt]
      · right
        simp [listLtB, hab]

theorem keyRank_inj {k1 k2 : Key} (h : keyRank k1 = keyRank k2) : k1 = k2 := by
  cases k1 with
  | account a1 =>
    cases k2 with
    | account a2 =>
      simp only [keyRank, List.cons.injEq, true_and] at h
      rw [h]
    | hash d2 => simp [keyRank] at h
    | uref a2 r2 => simp [keyRank] at h
  | hash d1 =>
    cases k2 with
    | account a2 => simp [keyRank] at h
    | hash d2 =>
      simp only [keyRank, List.cons.injEq, true_and] at h
      rw [h]
    | uref a2 r2 => simp [keyRank] at h
  | uref a1 r1 =>
    cases k2 with
    | account a2 => simp [keyRank] at h
    | hash d2 => simp [keyRank] at h
    | uref a2 r2 =>
      simp only [keyRank, List.cons.injEq, true_and] at h
      have hlen : a1.length = a2.length := by
        have hl := congrArg List.length h
        simp only [List.length_append, List.length_singleton] at hl
        omega
      obtain ⟨hA, hR⟩ := List.append_inj h hlen
      simp only [List.cons.injEq, and_true] at hR
      rw [hA, hR]

theorem keyLtB_asymm {x y : Key} (h : keyLtB x y = true) : keyLtB y x = false :=
  listLtB_asymm h

theorem keyLtB_trans {x y z : Key} (h1 : keyLtB x y = true)
    (h2 : keyLtB y z = true) : keyLtB x z = true :=
  listLtB_trans h1 h2

theorem keyLtB_total {x y : Key} (h : x ≠ y) :
    keyLtB x y = true ∨ keyLtB y x = true :=
  listLtB_total (fun hr => h (keyRank_inj hr))

theorem keyLtB_ne {x y : Key} (h : keyLtB x y = true) : x ≠ y :=
  fun hEq => listLtB_ne h (by rw [hEq])

/-! ## Sorted association-list map lemmas

Generic over the key type and a strict order given by a Bool-valued
comparison that is asymmetric, transitive and total.
-/

section SortedMapLemmas

variable {κ α : Type} [DecidableEq κ] {lt : κ → κ → Bool}

theorem mem_insertMapBy {k : κ} {v : α} {m : List (κ × α)} {p : κ × α}
    (h : p ∈ insertMapBy lt k v m) : p = (k, v) ∨ p ∈ m := by
  induction m with
  | nil => simpa [insertMapBy] using h
  | cons q t ih =>
    obtain ⟨k2, v2⟩ := q
    simp only [insertMapBy] at h
    split_ifs at h with h1 h2
    · rcases List.mem_cons.mp h with h | h
      · exact Or.inl h
      · exact Or.inr h
    · rcases List.mem_cons.mp h with h | h
      · exact Or.inl h
      · exact Or.inr (List.mem_cons_of_mem _ h)
    · rcases List.mem_cons.mp h with h | h
      · exact Or.inr (List.mem_cons.mpr (Or.inl h))
      · rcases ih h with h | h
        · exact Or.inl h
        · exact Or.inr (List.mem_cons_of_mem _ h)

theorem sorted_insertMapBy
    (htrans : ∀ {x y z : κ}, lt x y = true → lt y z = true → lt x z = true)
    (htotal : ∀ {x y : κ}, x ≠ y → lt x y = true ∨ lt y x = true)
    {m : List (κ × α)} (hs : SortedMap lt m) (k : κ) (v : α) :
    SortedMap lt (insertMapBy lt k v m) := by
  induction m with
  | nil => simp [insertMapBy, SortedMap]
  | cons q t ih =>
    obtain ⟨k2, v2⟩ := q
    simp only [SortedMap, List.pairwise_cons] at hs
    obtain ⟨hhead, htail⟩ := hs
    simp only [insertMapBy]
    split_ifs with h1 h2
    · simp only [SortedMap, List.pairwise_cons]
      refine ⟨?_, hhead, htail⟩
      intro p hp
      rcases List.mem_cons.mp hp with hp | hp
      · subst hp
        exact h1
      · exact htrans h1 (hhead p hp)
    · subst h2
      simp only [SortedMap, List.pairwise_cons]
      exact ⟨hhead, htail⟩
    · simp only [SortedMap, List.pairwise_cons]
      refine ⟨?_, ih htail⟩
      intro p hp
      rcases mem_insertMapBy hp with hp | hp
      · subst hp
        rcases htotal (fun hEq => h2 hEq.symm) with hlt | hlt
        · exact hlt
        · exact absurd hlt h1
      · exact hhead p hp

theorem sublist_eraseKey (k : κ) (m : List (κ × α)) :
    (eraseKey k m).Sublist m := by
  induction m with
  | nil => simp [eraseKey]
  | cons q t ih =>
    obtain ⟨k2, v2⟩ := q
    simp only [eraseKey]
    split_ifs with h
    · exact List.sublist_cons_self _ _
    · exact List.Sublist.cons₂ _ ih

theorem sorted_eraseKey {m : List (κ × α)} (hs : SortedMap lt m) (k : κ) :
    SortedMap lt (eraseKey k m) :=
  List.Pairwise.sublist (sublist_eraseKey k m) hs

theorem lookup_insertMapBy_self (k : κ) (v : α) (m : List (κ × α)) :
    lookupKey k (insertMapBy lt k v m) = some v := by
  induction m with
  | nil => simp [insertMapBy, lookupKey]
  | cons q t ih =>
    obtain ⟨k2, v2⟩ := q
    simp only [insertMapBy]
    split_ifs with h1 h2
    · simp [lookupKey]
    · simp [lookupKey]
    · have : k2 ≠ k := fun hEq => h2 hEq.symm
      simp [lookupKey, this, ih]

theorem lookup_insertMapBy_ne {k k2 : κ} (hne : k ≠ k2) (v : α) (m : List (κ × α)) :
    lookupKey k2 (insertMapBy lt k v m) = lookupKey k2 m := by
  induction m with
  | nil => simp [insertMapBy, lookupKey, hne]
  | cons q t ih =>
    obtain ⟨k3, v3⟩ := q
    simp only [insertMapBy]
    split_ifs with h1 h2
    · simp [lookupKey, hne]
    · subst h2
      simp [lookupKey, hne]
    · simp only [lookupKey]
      split_ifs with h3
      · rfl
      · exact ih

theorem lookup_eraseKey_ne {k k2 : κ} (hne : k ≠ k2) (m : List (κ × α)) :
    lookupKey k2 (eraseKey k m) = lookupKey k2 m := by
  induction m with
  | nil => simp [eraseKey]
  | cons q t ih =>
    obtain ⟨k3, v3⟩ := q
    simp only [eraseKey]
    split_ifs with h1
    · subst h1
      simp [lookupKey, hne]
    · simp only [lookupKey]
      split_ifs with h3
      · rfl
      · exact ih

theorem eraseKey_of_lookup_none {k : κ} {m : List (κ × α)}
    (h : lookupKey k m = none) : eraseKey k m = m := by
  induction m with
  | nil => rfl
  | cons q t ih =>
    obtain ⟨k2, v2⟩ := q
    simp only [lookupKey] at h
    by_cases h1 : k2 = k
    · rw [if_pos h1] at h
      exact absurd h (by simp)
    · rw [if_neg h1] at h
      simp only [eraseKey, if_neg h1]
      rw [ih h]

theorem lookup_none_of_forall_ne {k : κ} {m : List (κ × α)}
    (h : ∀ q ∈ m, q.1 ≠ k) : lookupKey k m = none := by
  induction m with
  | nil => rfl
  | cons q t ih =>
    obtain ⟨k2, v2⟩ := q
    have : k2 ≠ k := h (k2, v2) (by simp)
    simp only [lookupKey, if_neg this]
    exact ih (fun q hq => h q (List.mem_cons_of_mem _ hq))

theorem sorted_map_ext
    (hasymm : ∀ {x y : κ}, lt x y = true → lt y x = false)
    (htrans : ∀ {x y z : κ}, lt x y = true → lt y z = true → lt x z = true)
    (htotal : ∀ {x y : κ}, x ≠ y → lt x y = true ∨ lt y x = true)
    {s1 s2 : List (κ × α)} (h1 : SortedMap lt s1) (h2 : SortedMap lt s2)
    (hlook : ∀ k, lookupKey k s1 = lookupKey k s2) : s1 = s2 := by
  have ltNe : ∀ {x y : κ}, lt x y = true → x ≠ y := by
    intro x y hxy hEq
    subst hEq
    have := hasymm hxy
    rw [this] at hxy
    exact Bool.noConfusion hxy
  induction s1 generalizing s2 with
  | nil =>
    cases s2 with
    | nil => rfl
    | cons q t =>
      obtain ⟨k2, v2⟩ := q
      have := hlook k2
      simp [lookupKey] at this
  | cons p t1 ih =>
    obtain ⟨k1, v1⟩ := p
    cases s2 with
    | nil =>
      have := hlook k1
      simp [lookupKey] at this
    | cons q t2 =>
      obtain ⟨k2, v2⟩ := q
      simp only [SortedMap, List.pairwise_cons] at h1 h2
      by_cases hk : k1 = k2
      · subst hk
        have hv : v1 = v2 := by
          have := hlook k1
          simpa [lookupKey] using this
        subst hv
        have htails : ∀ k, lookupKey k t1 = lookupKey k t2 := by
          intro k
          by_cases hkk : k = k1
          · subst hkk
            have hn1 : lookupKey k t1 = none :=
              lookup_none_of_forall_ne (fun q hq => (ltNe (h1.1 q hq)).symm)
            have hn2 : lookupKey k t2 = none :=
              lookup_none_of_forall_ne (fun q hq => (ltNe (h2.1 q hq)).symm)
            rw [hn1, hn2]
          · have hne2 : k1 ≠ k := fun hEq => hkk hEq.symm
            have := hlook k
            simpa [lookupKey, hne2] using this
        rw [ih h1.2 h2.2 htails]
      · exfalso
        rcases htotal hk with hlt | hlt
        · have hs1 : lookupKey k1 ((k1, v1) :: t1) = some v1 := by simp [lookupKey]
          have hs2 : lookupKey k1 ((k2, v2) :: t2) = none := by
            refine lookup_none_of_forall_ne ?_
            intro q hq
            rcases List.mem_cons.mp hq with hq | hq
            · subst hq
              exact fun hEq => hk hEq.symm
            · exact (ltNe (htrans hlt (h2.1 q hq))).symm
          rw [hlook k1, hs2] at hs1
          exact Option.noConfusion hs1
        · have hs2 : lookupKey k2 ((k2, v2) :: t2) = some v2 := by simp [lookupKey]
          have hs1 : lookupKey k2 ((k1, v1) :: t1) = none := by
            refine lookup_none_of_forall_ne ?_
            intro q hq
            rcases List.mem_cons.mp hq with hq | hq
            · subst hq
              exact hk
            · exact (ltNe (htrans hlt (h1.1 q hq))).symm
          rw [← hlook k2, hs1] at hs2
          exact Option.noConfusion hs2

end SortedMapLemmas

theorem sortedMap_of_mapSortedBy {κ α : Type} {lt : κ → κ → Bool}
    (htrans : ∀ {x y z : κ}, lt x y = true → lt y z = true → lt x z = true)
    {m : List (κ × α)} (h : mapSortedBy lt m = true) : SortedMap lt m := by
  induction m with
  | nil => exact List.Pairwise.nil
  | cons p t ih =>
    cases t with
    | nil => simp [SortedMap]
    | cons q u =>
      simp only [mapSortedBy, Bool.and_eq_true] at h
      have htail := ih h.2
      simp only [SortedMap, List.pairwise_cons] at htail ⊢
      refine ⟨?_, htail⟩
      intro r hr
      rcases List.mem_cons.mp hr with hr | hr
      · subst hr
        exact h.1
      · exact htrans h.1 (htail.1 r hr)

/-! ## Commit-loop lemmas (InMemHist::commit) -/

theorem commit_checkout {H : GlobalState → Nat} {hist : InMemHist} {root : Nat}
    {base : GlobalState} {effects : List (Key × Transform)}
    (hbase : histGet hist root = some base) :
    commit H hist root effects =
      match commitLoop base effects with
      | .ok base2 => ({ history := (H base2, base2) :: hist.history }, .success (H base2))
      | .error r => (hist, r) := by
  unfold commit
  rw [hbase]

theorem commitStep_ok {base : GlobalState} {k : Key} {t : Transform} {b : GlobalState}
    (h : commitStep base k t = .ok b) :
    ∃ v, stepRes k t (lookupKey k base) = .ok v
      ∧ b = insertMapBy keyLtB k v (eraseKey k base) := by
  unfold commitStep at h
  cases hs : stepRes k t (lookupKey k base) with
  | ok v =>
    rw [hs] at h
    exact ⟨v, rfl, ((Except.ok.injEq _ _).mp h).symm⟩
  | error r =>
    rw [hs] at h
    exact Except.noConfusion h

theorem commitStep_eq_of {base : GlobalState} {k : Key} {t : Transform} {v : Value}
    (hs : stepRes k t (lookupKey k base) = .ok v) :
    commitStep base k t = .ok (insertMapBy keyLtB k v (eraseKey k base)) := by
  unfold commitStep
  rw [hs]

theorem step_lookup_ne {k k2 : Key} (hne : k ≠ k2) (v : Value) (base : GlobalState) :
    lookupKey k2 (insertMapBy keyLtB k v (eraseKey k base)) = lookupKey k2 base := by
  rw [lookup_insertMapBy_ne hne, lookup_eraseKey_ne hne]

theorem step_sorted {base : GlobalState} (hs : SortedMap keyLtB base)
    (k : Key) (v : Value) :
    SortedMap keyLtB (insertMapBy keyLtB k v (eraseKey k base)) := by
  refine sorted_insertMapBy ?_ ?_ (sorted_eraseKey hs k) k v
  · exact fun h1 h2 => keyLtB_trans h1 h2
  · exact fun h => keyLtB_total h

theorem commitLoop_sorted {base : GlobalState} {l : List (Key × Transform)}
    {s : GlobalState} (h : commitLoop base l = .ok s)
    (hs : SortedMap keyLtB base) : SortedMap keyLtB s := by
  induction l generalizing base with
  | nil =>
    simp only [commitLoop, Except.ok.injEq] at h
    rw [← h]
    exact hs
  | cons p rest ih =>
    obtain ⟨k, t⟩ := p
    simp only [commitLoop] at h
    cases hcs : commitStep base k t with
    | ok base2 =>
      rw [hcs] at h
      obtain ⟨v, hv, hb⟩ := commitStep_ok hcs
      exact ih h (hb ▸ step_sorted hs k v)
    | error r =>
      rw [hcs] at h
      exact Except.noConfusion h

theorem commitLoop_lookup_notin {base : GlobalState} {l : List (Key × Transform)}
    {s : GlobalState} (h : commitLoop base l = .ok s)
    (k : Key) (hk : k ∉ l.map Prod.fst) :
    lookupKey k s = lookupKey k base := by
  induction l generalizing base with
  | nil =>
    simp only [commitLoop, Except.ok.injEq] at h
    rw [← h]
  | cons p rest ih =>
    obtain ⟨k1, t1⟩ := p
    simp only [List.map_cons, List.mem_cons, not_or] at hk
    obtain ⟨hk1, hkrest⟩ := hk
    simp only [commitLoop] at h
    cases hcs : commitStep base k1 t1 with
    | ok base2 =>
      rw [hcs] at h
      obtain ⟨v, hv, hb⟩ := commitStep_ok hcs
      rw [ih h hkrest, hb, step_lookup_ne (fun hEq => hk1 hEq.symm) v base]
    | error r =>
      rw [hcs] at h
      exact Except.noConfusion h

theorem commitLoop_entries_ok {base : GlobalState} {l : List (Key × Transform)}
    {s : GlobalState} (h : commitLoop base l = .ok s)
    (hnodup : (l.map Prod.fst).Nodup) :
    ∀ p ∈ l, ∃ v, stepRes p.1 p.2 (lookupKey p.1 base) = .ok v := by
  induction l generalizing base with
  | nil => intro p hp; cases hp
  | cons q rest ih =>
    obtain ⟨k1, t1⟩ := q
    simp only [List.map_cons, List.nodup_cons] at hnodup
    simp only [commitLoop] at h
    cases hcs : commitStep base k1 t1 with
    | ok base2 =>
      rw [hcs] at h
      obtain ⟨v, hv, hb⟩ := commitStep_ok hcs
      intro p hp
      rcases List.mem_cons.mp hp with hp | hp
      · subst hp
        exact ⟨v, hv⟩
      · have hpne : p.1 ≠ k1 := by
          intro hEq
          exact hnodup.1 (hEq ▸ List.mem_map_of_mem Prod.fst hp)
        obtain ⟨v2, hv2⟩ := ih h hnodup.2 p hp
        refine ⟨v2, ?_⟩
        rw [hb, step_lookup_ne (fun hEq => hpne hEq.symm) v base] at hv2
        exact hv2
    | error r =>
      rw [hcs] at h
      exact Except.noConfusion h

theorem commitLoop_ok_of {base : GlobalState} {l : List (Key × Transform)}
    (hnodup : (l.map Prod.fst).Nodup)
    (hall : ∀ p ∈ l, ∃ v, stepRes p.1 p.2 (lookupKey p.1 base) = .ok v) :
    ∃ s, commitLoop base l = .ok s := by
  induction l generalizing base with
  | nil => exact ⟨base, rfl⟩
  | cons q rest ih =>
    obtain ⟨k1, t1⟩ := q
    simp only [List.map_cons, List.nodup_cons] at hnodup
    obtain ⟨v, hv⟩ := hall (k1, t1) (List.mem_cons_self _ _)
    have hstep := commitStep_eq_of hv
    have hall2 : ∀ p ∈ rest, ∃ v2, stepRes p.1 p.2
        (lookupKey p.1 (insertMapBy keyLtB k1 v (eraseKey k1 base))) = .ok v2 := by
      intro p hp
      have hpne : p.1 ≠ k1 := by
        intro hEq
        exact hnodup.1 (hEq ▸ List.mem_map_of_mem Prod.fst hp)
      obtain ⟨v2, hv2⟩ := hall p (List.mem_cons_of_mem _ hp)
      refine ⟨v2, ?_⟩
      rw [step_lookup_ne (fun hEq => hpne hEq.symm) v base]
      exact hv2
    obtain ⟨s, hs⟩ := ih hnodup.2 hall2
    refine ⟨s, ?_⟩
    simp only [commitLoop, hstep]
    exact hs

theorem commitLoop_lookup_mem {base : GlobalState} {l : List (Key × Transform)}
    {s : GlobalState} (h : commitLoop base l = .ok s)
    (hnodup : (l.map Prod.fst).Nodup)
    {k : Key} {t : Transform} {v : Value} (hmem : (k, t) ∈ l)
    (hv : stepRes k t (lookupKey k base) = .ok v) :
    lookupKey k s = some v := by
  induction l generalizing base with
  | nil => cases hmem
  | cons q rest ih =>
    obtain ⟨k1, t1⟩ := q
    simp only [List.map_cons, List.nodup_cons] at hnodup
    simp only [commitLoop] at h
    cases hcs : commitStep base k1 t1 with
    | ok base2 =>
      rw [hcs] at h
      obtain ⟨v1, hv1, hb⟩ := commitStep_ok hcs
      rcases List.mem_cons.mp hmem with hp | hp
      · have hk : k = k1 := congrArg Prod.fst hp
        have ht : t = t1 := congrArg Prod.snd hp
        subst hk
        subst ht
        have hvv : v = v1 := by
          rw [hv] at hv1
          exact (Except.ok.injEq _ _).mp hv1
        subst hvv
        have hnotin : k ∉ rest.map Prod.fst := hnodup.1
        rw [commitLoop_lookup_notin h k hnotin, hb,
          lookup_insertMapBy_self k v (eraseKey k base)]
      · have hkne : k ≠ k1 := by
          intro hEq
          exact hnodup.1 (hEq ▸ List.mem_map_of_mem Prod.fst hp)
        refine ih h hnodup.2 hp ?_
        rw [hb, step_lookup_ne (fun hEq => hkne hEq.symm) v1 base]
        exact hv
    | error r =>
      rw [hcs] at h
      exact Except.noConfusion h

/-! ## Key and Value round-trip lemmas -/

theorem keyFromBytes_append (k : Key) (rest : List Nat) (h : k.wf = true) :
    keyFromBytes (keyToBytes k ++ rest) = .ok (k, rest) := by
  cases k with
  | account addr =>
    simp only [Key.wf, Bool.and_eq_true, beq_iff_eq] at h
    have hlen : addr.length = 20 := h.1
    have hshape : keyToBytes (Key.account addr) ++ rest
        = 0 :: (strToBytes addr ++ rest) := by
      simp [keyToBytes, strToBytes, hlen]
    rw [hshape]
    simp [keyFromBytes, readU8, readStr_append addr rest (by omega), hlen]
  | hash digest =>
    simp only [Key.wf, Bool.and_eq_true, beq_iff_eq] at h
    have hshape : keyToBytes (Key.hash digest) ++ rest
        = 1 :: (strToBytes digest ++ rest) := by
      simp [keyToBytes]
    rw [hshape]
    simp [keyFromBytes, readU8, readFixed32_append digest rest h.1]
  | uref addr rights =>
    simp only [Key.wf, Bool.and_eq_true, beq_iff_eq, decide_eq_true_eq] at h
    have hshape : keyToBytes (Key.uref addr rights) ++ rest
        = 2 :: (strToBytes addr ++ (rights :: rest)) := by
      simp [keyToBytes]
    rw [hshape]
    simp [keyFromBytes, readU8, readFixed32_append addr (rights :: rest) h.1.1,
      readAccessRights, h.2]

theorem readPairs_append (m : List (List Nat × Key)) (rest : List Nat)
    (h : m.all (fun p => strWf p.1 && p.2.wf) = true) :
    readPairs m.length
      ((m.map (fun p => strToBytes p.1 ++ keyToBytes p.2)).flatten ++ rest)
      = .ok (m, rest) := by
  induction m with
  | nil => simp [readPairs]
  | cons p t ih =>
    obtain ⟨s, k⟩ := p
    simp only [List.all_cons, Bool.and_eq_true] at h
    obtain ⟨⟨hs, hk⟩, ht⟩ := h
    have hslen : s.length < 2 ^ 32 := by
      simp only [strWf, Bool.and_eq_true, decide_eq_true_eq] at hs
      exact hs.2
    have hshape :
        (((s, k) :: t).map (fun p => strToBytes p.1 ++ keyToBytes p.2)).flatten ++ rest
        = strToBytes s ++ (keyToBytes k
            ++ ((t.map (fun p => strToBytes p.1 ++ keyToBytes p.2)).flatten ++ rest)) := by
      simp
    rw [List.length_cons, hshape, readPairs]
    rw [readStr_append s _ hslen]
    simp only [exceptBind_ok]
    rw [keyFromBytes_append k _ hk]
    simp only [exceptBind_ok]
    rw [ih ht]
    rfl

theorem readMap_append (m : List (List Nat × Key)) (rest : List Nat)
    (h : mapWf m = true) : readMap (mapToBytes m ++ rest) = .ok (m, rest) := by
  simp only [mapWf, Bool.and_eq_true, decide_eq_true_eq] at h
  obtain ⟨⟨hall, hsort⟩, hlen⟩ := h
  have hshape : mapToBytes m ++ rest
      = u32ToBytes m.length
        ++ ((m.map (fun p => strToBytes p.1 ++ keyToBytes p.2)).flatten ++ rest) := by
    simp [mapToBytes]
  rw [readMap, hshape]
  have h32 : readU32 (u32ToBytes m.length
      ++ ((m.map (fun p => strToBytes p.1 ++ keyToBytes p.2)).flatten ++ rest))
      = .ok (m.length, (m.map (fun p => strToBytes p.1 ++ keyToBytes p.2)).flatten ++ rest) :=
    readLE_append 4 m.length _ (by simpa using hlen)
  rw [h32]
  simp only [exceptBind_ok]
  rw [readPairs_append m rest hall]
  simp [fromPairsBy_sorted m hsort]

theorem accountFromBytes_append (a : Account) (bs rest : List Nat)
    (hwf : a.wf = true) (henc : accountToBytes a = .ok bs) :
    accountFromBytes (bs ++ rest) = .ok (a, rest) := by
  simp only [Account.wf, Bool.and_eq_true, beq_iff_eq, decide_eq_true_eq] at hwf
  obtain ⟨⟨⟨hpk, _⟩, hnonce⟩, hmap⟩ := hwf
  rw [accountToBytes] at henc
  split_ifs at henc with hguard
  have hbs : bs = strToBytes a.public_key ++ u64ToBytes a.nonce
      ++ mapToBytes a.known_urefs := by
    exact (Except.ok.injEq _ _).mp henc.symm
  have hshape : bs ++ rest = strToBytes a.public_key
      ++ (u64ToBytes a.nonce ++ (mapToBytes a.known_urefs ++ rest)) := by
    simp [hbs]
  rw [accountFromBytes, hshape, readFixed32_append a.public_key _ hpk]
  simp only [exceptBind_ok]
  have h64 : readU64 (u64ToBytes a.nonce ++ (mapToBytes a.known_urefs ++ rest))
      = .ok (a.nonce, mapToBytes a.known_urefs ++ rest) :=
    readLE_append 8 a.nonce _ (by simpa using hnonce)
  rw [h64]
  simp only [exceptBind_ok]
  rw [readMap_append a.known_urefs rest hmap]
  rfl

theorem contractFromBytes_append (c : Contract) (rest : List Nat)
    (hwf : c.wf = true) :
    contractFromBytes (contractToBytes c ++ rest) = .ok (c, rest) := by
  simp only [Contract.wf, Bool.and_eq_true, decide_eq_true_eq] at hwf
  obtain ⟨⟨hbytes, hmap⟩, hpv⟩ := hwf
  have hblen : c.bytes.length < 2 ^ 32 := by
    simp only [strWf, Bool.and_eq_true, decide_eq_true_eq] at hbytes
    exact hbytes.2
  have hshape : contractToBytes c ++ rest = strToBytes c.bytes
      ++ (mapToBytes c.named_keys ++ (u64ToBytes c.protocol_version ++ rest)) := by
    simp [contractToBytes]
  rw [contractFromBytes, hshape, readStr_append c.bytes _ hblen]
  simp only [exceptBind_ok]
  rw [readMap_append c.named_keys _ hmap]
  simp only [exceptBind_ok]
  have h64 : readU64 (u64ToBytes c.protocol_version ++ rest)
      = .ok (c.protocol_version, rest) :=
    readLE_append 8 c.protocol_version _ (by simpa using hpv)
  rw [h64]
  rfl

theorem readI32List_append (arr : List Nat) (rest : List Nat)
    (h : arr.all (fun i => decide (i < 2 ^ 32)) = true) :
    readI32List arr.length ((arr.map u32ToBytes).flatten ++ rest) = .ok (arr, rest) := by
  induction arr with
  | nil => simp [readI32List]
  | cons i t ih =>
    simp only [List.all_cons, Bool.and_eq_true, decide_eq_true_eq] at h
    have hshape : ((i :: t).map u32ToBytes).flatten ++ rest
        = u32ToBytes i ++ ((t.map u32ToBytes).flatten ++ rest) := by
      simp
    rw [List.length_cons, hshape, readI32List]
    have h32 : readU32 (u32ToBytes i ++ ((t.map u32ToBytes).flatten ++ rest))
        = .ok (i, (t.map u32ToBytes).flatten ++ rest) :=
      readLE_append 4 i _ (by simpa using h.1)
    rw [h32]
    simp only [exceptBind_ok]
    rw [ih h.2]
    rfl

theorem readStrList_append (arr : List (List Nat)) (rest : List Nat)
    (h : arr.all strWf = true) :
    readStrList arr.length ((arr.map strToBytes).flatten ++ rest) = .ok (arr, rest) := by
  induction arr with
  | nil => simp [readStrList]
  | cons s t ih =>
    simp only [List.all_cons, Bool.and_eq_true] at h
    have hslen : s.length < 2 ^ 32 := by
      have := h.1
      simp only [strWf, Bool.and_eq_true, decide_eq_true_eq] at this
      exact this.2
    have hshape : ((s :: t).map strToBytes).flatten ++ rest
        = strToBytes s ++ ((t.map strToBytes).flatten ++ rest) := by
      simp
    rw [List.length_cons, hshape, readStrList, readStr_append s _ hslen]
    simp only [exceptBind_ok]
    rw [ih h.2]
    rfl

/-! ## Claim theorems -/

theorem byteArray_oversize (arr : List Nat)
    (h : arr.length ≥ U32_MAX - U8_SIZE - U32_SIZE) :
    valueToBytes (Value.byteArray arr) = .error .outOfMemoryError := by
  simp only [valueToBytes]
  rw [if_pos h]

/-- C4 counterexample: encoding is not total.  Value::to_bytes explicitly
fails with OutOfMemoryError when a byte array reaches the 32-bit
length-prefix range, so the claim that the encoding is total is false at
the byte array of 2 to the 32 zeros. -/
theorem value_to_bytes_not_total_cex :
    valueToBytes (Value.byteArray (List.replicate (2 ^ 32) 0)) = .error .outOfMemoryError :=
  byteArray_oversize _ (by
    rw [List.length_replicate]
    norm_num [U32_MAX, U8_SIZE, U32_SIZE])

/-- C2 counterexample: the commit loop of InMemHist::commit iterates the
effects in whatever order the backing HashMap yields (modelled by the
effects list), not in ascending byte-lexicographic order of the canonical
key encoding.  At a concrete input with two absent keys under Identity
transforms, the loop in the given order reports KeyNotFound for the key it
happens to meet first, while the sorted-iteration commit the claim
describes (commitSortedSpec, written from the claim's words) reports the
lexicographically smaller key — so the code does not iterate in sorted
order. -/
theorem commit_not_sorted_iteration_cex :
    (commit (fun _ => 0) ⟨[(0, [])]⟩ 0
        [(Key.account (List.replicate 20 2), Transform.identity),
         (Key.account (List.replicate 20 1), Transform.identity)]).2
      = CommitResult.keyNotFound (Key.account (List.replicate 20 2))
    ∧ (commitSortedSpec (fun _ => 0) ⟨[(0, [])]⟩ 0
        [(Key.account (List.replicate 20 2), Transform.identity),
         (Key.account (List.replicate 20 1), Transform.identity)]).2
      = CommitResult.keyNotFound (Key.account (List.replicate 20 1)) := by
  decide

/-- C2 (amended): the commit loop runs in the arbitrary iteration order of
the effects HashMap, but the committed result is order-independent: for
any permutation of the effects with distinct keys, if the loop succeeds in
one order it succeeds in every order with the same final snapshot, so the
post-state root (a function of the final key-sorted snapshot) is the same
— which is what keeps two implementations in agreement.  Failure results
are also permutation-invariant up to which key is reported. -/
theorem commit_order_independent
    (H : GlobalState → Nat) (hist : InMemHist) (root : Nat)
    (base s : GlobalState) (l1 l2 : List (Key × Transform))
    (hbase : histGet hist root = some base) (hsorted : SortedMap keyLtB base)
    (hperm : l1.Perm l2) (hnodup : (l1.map Prod.fst).Nodup)
    (hok : commitLoop base l1 = .ok s) :
    commitLoop base l2 = .ok s ∧ commit H hist root l2 = commit H hist root l1 := by
  have hnodup2 : (l2.map Prod.fst).Nodup := ((hperm.map Prod.fst).nodup_iff).mp hnodup
  have hentries1 := commitLoop_entries_ok hok hnodup
  have hentries2 : ∀ p ∈ l2, ∃ v, stepRes p.1 p.2 (lookupKey p.1 base) = .ok v :=
    fun p hp => hentries1 p (hperm.mem_iff.mpr hp)
  obtain ⟨s2, hok2⟩ := commitLoop_ok_of hnodup2 hentries2
  have hs1 : SortedMap keyLtB s := commitLoop_sorted hok hsorted
  have hs2 : SortedMap keyLtB s2 := commitLoop_sorted hok2 hsorted
  have hlook : ∀ k, lookupKey k s2 = lookupKey k s := by
    intro k
    by_cases hk : k ∈ l1.map Prod.fst
    · obtain ⟨p, hp, hpk⟩ := List.mem_map.mp hk
      obtain ⟨v, hv⟩ := hentries1 p hp
      have hmem2 : p ∈ l2 := hperm.mem_iff.mp hp
      subst hpk
      have e1 : lookupKey p.1 s = some v :=
        commitLoop_lookup_mem hok hnodup hp hv
      have e2 : lookupKey p.1 s2 = some v :=
        commitLoop_lookup_mem hok2 hnodup2 hmem2 hv
      rw [e1, e2]
    · have hk2 : k ∉ l2.map Prod.fst := fun hc => hk ((hperm.map Prod.fst).mem_iff.mpr hc)
      rw [commitLoop_lookup_notin hok k hk, commitLoop_lookup_notin hok2 k hk2]
  have hss : s2 = s := by
    refine sorted_map_ext ?_ ?_ ?_ hs2 hs1 hlook
    · exact fun h => keyLtB_asymm h
    · exact fun h1 h2 => keyLtB_trans h1 h2
    · exact fun h => keyLtB_total h
  subst hss
  refine ⟨hok2, ?_⟩
  rw [commit_checkout hbase, commit_checkout hbase, hok, hok2]

/-- Witness for commit_order_independent: two single-key effects applied
in either order against a two-cell state commit to the same snapshot. -/
theorem commit_order_independent_witness :
    commitLoop
        [(Key.account (List.replicate 20 1), Value.int32 1),
         (Key.account (List.replicate 20 2), Value.int32 2)]
        [(Key.account (List.replicate 20 1), Transform.identity),
         (Key.account (List.replicate 20 2), Transform.write (Value.int32 9))]
      = .ok [(Key.account (List.replicate 20 1), Value.int32 1),
             (Key.account (List.replicate 20 2), Value.int32 9)]
    ∧ commit (fun _ => 7) ⟨[(5, [(Key.account (List.replicate 20 1), Value.int32 1),
          (Key.account (List.replicate 20 2), Value.int32 2)])]⟩ 5
        [(Key.account (List.replicate 20 1), Transform.identity),
         (Key.account (List.replicate 20 2), Transform.write (Value.int32 9))]
      = commit (fun _ => 7) ⟨[(5, [(Key.account (List.replicate 20 1), Value.int32 1),
          (Key.account (List.replicate 20 2), Value.int32 2)])]⟩ 5
        [(Key.account (List.replicate 20 2), Transform.write (Value.int32 9)),
         (Key.account (List.replicate 20 1), Transform.identity)] := by
  refine commit_order_independent (fun _ => 7)
    ⟨[(5, [(Key.account (List.replicate 20 1), Value.int32 1),
        (Key.account (List.replicate 20 2), Value.int32 2)])]⟩ 5
    [(Key.account (List.replicate 20 1), Value.int32 1),
     (Key.account (List.replicate 20 2), Value.int32 2)]
    [(Key.account (List.replicate 20 1), Value.int32 1),
     (Key.account (List.replicate 20 2), Value.int32 9)]
    [(Key.account (List.replicate 20 2), Transform.write (Value.int32 9)),
     (Key.account (List.replicate 20 1), Transform.identity)]
    [(Key.account (List.replicate 20 1), Transform.identity),
     (Key.account (List.replicate 20 2), Transform.write (Value.int32 9))]
    rfl ?_
    (List.Perm.swap (Key.account (List.replicate 20 1), Transform.identity)
      (Key.account (List.replicate 20 2), Transform.write (Value.int32 9)) [])
    (by decide)
    (by decide)
  refine sortedMap_of_mapSortedBy ?_ (by decide)
  exact fun h1 h2 => keyLtB_trans h1 h2

/-- C10: committing against an existing prestate root an effects map whose
key is absent from the prestate inserts the key when the transform is a
Write, producing a new root over the extended snapshot; any non-Write
transform makes the whole commit return KeyNotFound for that key with the
stored history left unchanged (no new root is added). -/
theorem commit_missing_key_write_vs_nonwrite
    (H : GlobalState → Nat) (hist : InMemHist) (root : Nat) (base : GlobalState)
    (k : Key) (hbase : histGet hist root = some base)
    (hmiss : lookupKey k base = none) :
    (∀ v, commit H hist root [(k, Transform.write v)]
        = ({ history := (H (insertMapBy keyLtB k v base), insertMapBy keyLtB k v base)
              :: hist.history },
           CommitResult.success (H (insertMapBy keyLtB k v base))))
    ∧ (∀ t, t.isWrite = false →
        commit H hist root [(k, t)] = (hist, CommitResult.keyNotFound k)) := by
  have herase : eraseKey k base = base := eraseKey_of_lookup_none hmiss
  constructor
  · intro v
    have hstep : commitStep base k (Transform.write v)
        = .ok (insertMapBy keyLtB k v base) := by
      unfold commitStep
      rw [hmiss, herase]
      rfl
    rw [commit_checkout hbase]
    simp only [commitLoop, hstep]
  · intro t ht
    have hstep : commitStep base k t = .error (.keyNotFound k) := by
      unfold commitStep
      rw [hmiss]
      cases t <;> first | rfl | simp [Transform.isWrite] at ht
    rw [commit_checkout hbase]
    simp only [commitLoop, hstep]

/-- Witness for commit_missing_key_write_vs_nonwrite: against an empty
prestate, a Write of Unit under a fresh hash key commits successfully with
the key inserted, while an Identity on the same absent key returns
KeyNotFound and leaves the history untouched. -/
theorem commit_missing_key_witness :
    commit (fun _ => 42) ⟨[(0, [])]⟩ 0
        [(Key.hash (List.replicate 32 3), Transform.write Value.unit)]
      = ({ history := (42, [(Key.hash (List.replicate 32 3), Value.unit)]) :: [(0, [])] },
         CommitResult.success 42)
    ∧ commit (fun _ => 42) ⟨[(0, [])]⟩ 0
        [(Key.hash (List.replicate 32 3), Transform.identity)]
      = (⟨[(0, [])]⟩, CommitResult.keyNotFound (Key.hash (List.replicate 32 3))) :=
  ⟨(commit_missing_key_write_vs_nonwrite (fun _ => 42) ⟨[(0, [])]⟩ 0 []
      (Key.hash (List.replicate 32 3)) rfl rfl).1 Value.unit,
   (commit_missing_key_write_vs_nonwrite (fun _ => 42) ⟨[(0, [])]⟩ 0 []
      (Key.hash (List.replicate 32 3)) rfl rfl).2 Transform.identity rfl⟩

/-- C4 (amended): decoding inverts encoding.  For every well-formed Key
the decoder returns the key and the untouched remainder of the stream;
for every well-formed Value whose encoding succeeds (it fails only with
OutOfMemoryError on data at the 32-bit size boundary), decoding the
produced bytes returns the value exactly. -/
theorem key_value_roundtrip :
    (∀ (k : Key) (rest : List Nat), k.wf = true →
      keyFromBytes (keyToBytes k ++ rest) = .ok (k, rest))
    ∧ (∀ (v : Value) (bs rest : List Nat), v.wf = true →
      valueToBytes v = .ok bs →
      valueFromBytes (bs ++ rest) = .ok (v, rest)) := by
  refine ⟨fun k rest h => keyFromBytes_append k rest h, fun v bs rest hwf henc => ?_⟩
  cases v with
  | int32 bits =>
    simp only [valueToBytes, Except.ok.injEq] at henc
    subst henc
    simp only [Value.wf, decide_eq_true_eq] at hwf
    have h32 : readU32 (u32ToBytes bits ++ rest) = .ok (bits, rest) :=
      readLE_append 4 bits rest (by simpa using hwf)
    simp [valueFromBytes, readU8, h32]
  | uint64 num =>
    simp only [valueToBytes, Except.ok.injEq] at henc
    subst henc
    simp only [Value.wf, decide_eq_true_eq] at hwf
    have h64 : readU64 (u64ToBytes num ++ rest) = .ok (num, rest) :=
      readLE_append 8 num rest (by simpa using hwf)
    simp [valueFromBytes, readU8, h64]
  | uint128 u =>
    simp only [valueToBytes, Except.ok.injEq] at henc
    subst henc
    simp only [Value.wf, decide_eq_true_eq] at hwf
    have hu : readUint 16 (uintToBytes u ++ rest) = .ok (u, rest) :=
      readUint_append 16 u rest (by simpa using hwf)
    simp [valueFromBytes, readU8, hu]
  | uint256 u =>
    simp only [valueToBytes, Except.ok.injEq] at henc
    subst henc
    simp only [Value.wf, decide_eq_true_eq] at hwf
    have hu : readUint 32 (uintToBytes u ++ rest) = .ok (u, rest) :=
      readUint_append 32 u rest (by simpa using hwf)
    simp [valueFromBytes, readU8, hu]
  | uint512 u =>
    simp only [valueToBytes, Except.ok.injEq] at henc
    subst henc
    simp only [Value.wf, decide_eq_true_eq] at hwf
    have hpow : (256 : Nat) ^ 64 = 2 ^ 512 := by
      rw [show (256 : Nat) = 2 ^ 8 by norm_num, ← pow_mul]
    have hu : readUint 64 (uintToBytes u ++ rest) = .ok (u, rest) :=
      readUint_append 64 u rest (by rw [hpow]; exact hwf)
    simp [valueFromBytes, readU8, hu]
  | byteArray arr =>
    simp only [valueToBytes] at henc
    split_ifs at henc with hg
    simp only [Except.ok.injEq] at henc
    subst henc
    simp only [Value.wf, strWf, Bool.and_eq_true, decide_eq_true_eq] at hwf
    simp [valueFromBytes, readU8, readStr_append arr rest hwf.2]
  | listInt32 arr =>
    simp only [valueToBytes] at henc
    split_ifs at henc with hg
    simp only [Except.ok.injEq] at henc
    subst henc
    simp only [Value.wf, Bool.and_eq_true, decide_eq_true_eq] at hwf
    have hshape : vecI32ToBytes arr ++ rest
        = u32ToBytes arr.length ++ ((arr.map u32ToBytes).flatten ++ rest) := by
      simp [vecI32ToBytes]
    have hn : readU32 (u32ToBytes arr.length ++ ((arr.map u32ToBytes).flatten ++ rest))
        = .ok (arr.length, (arr.map u32ToBytes).flatten ++ rest) :=
      readLE_append 4 arr.length _ (by simpa using hwf.2)
    simp [valueFromBytes, readU8, hshape, hn, readI32List_append arr rest hwf.1]
  | string s =>
    simp only [valueToBytes] at henc
    split_ifs at henc with hg
    simp only [Except.ok.injEq] at henc
    subst henc
    simp only [Value.wf, strWf, Bool.and_eq_true, decide_eq_true_eq] at hwf
    simp [valueFromBytes, readU8, readStr_append s rest hwf.2]
  | listString arr =>
    simp only [valueToBytes] at henc
    split_ifs at henc with hg
    simp only [Except.ok.injEq] at henc
    subst henc
    simp only [Value.wf, Bool.and_eq_true, decide_eq_true_eq] at hwf
    have hshape : vecStrToBytes arr ++ rest
        = u32ToBytes arr.length ++ ((arr.map strToBytes).flatten ++ rest) := by
      simp [vecStrToBytes]
    have hn : readU32 (u32ToBytes arr.length ++ ((arr.map strToBytes).flatten ++ rest))
        = .ok (arr.length, (arr.map strToBytes).flatten ++ rest) :=
      readLE_append 4 arr.length _ (by simpa using hwf.2)
    simp [valueFromBytes, readU8, hshape, hn, readStrList_append arr rest hwf.1]
  | namedKey n k =>
    simp only [valueToBytes] at henc
    split_ifs at henc with hg
    simp only [Except.ok.injEq] at henc
    subst henc
    simp only [Value.wf, Bool.and_eq_true] at hwf
    have hnlen : n.length < 2 ^ 32 := by
      have := hwf.1
      simp only [strWf, Bool.and_eq_true, decide_eq_true_eq] at this
      exact this.2
    have hshape : (strToBytes n ++ keyToBytes k) ++ rest
        = strToBytes n ++ (keyToBytes k ++ rest) := by
      simp
    simp [valueFromBytes, readU8, hshape, readStr_append n _ hnlen,
      keyFromBytes_append k rest hwf.2]
  | key k =>
    simp only [valueToBytes, Except.ok.injEq] at henc
    subst henc
    simp only [Value.wf] at hwf
    simp [valueFromBytes, readU8, keyFromBytes_append k rest hwf]
  | account a =>
    cases haenc : accountToBytes a with
    | error e =>
      simp only [valueToBytes, haenc, exceptBind_error] at henc
      exact Except.noConfusion henc
    | ok bytes =>
      simp only [valueToBytes, haenc, exceptBind_ok] at henc
      split_ifs at henc with hg
      simp only [Except.ok.injEq] at henc
      subst henc
      simp only [Value.wf] at hwf
      simp [valueFromBytes, readU8, accountFromBytes_append a bytes rest hwf haenc]
  | contract c =>
    simp only [valueToBytes, Except.ok.injEq] at henc
    subst henc
    simp only [Value.wf] at hwf
    simp [valueFromBytes, readU8, contractFromBytes_append c rest hwf]
  | unit =>
    simp only [valueToBytes, Except.ok.injEq] at henc
    subst henc
    simp [valueFromBytes, readU8]

/-- Witness for key_value_roundtrip: a concrete account key and a concrete
u64 value both survive the encode-decode round trip. -/
theorem key_value_roundtrip_witness :
    keyFromBytes (keyToBytes (Key.account (List.replicate 20 5)) ++ [9])
      = .ok (Key.account (List.replicate 20 5), [9])
    ∧ valueFromBytes ((13 :: u64ToBytes 7) ++ [1]) = .ok (Value.uint64 7, [1]) :=
  ⟨key_value_roundtrip.1 (Key.account (List.replicate 20 5)) [9] (by decide),
   key_value_roundtrip.2 (Value.uint64 7) (13 :: u64ToBytes 7) [1] (by decide) rfl⟩

/-- C1: the claim states that a URef access is permitted only if the URef
address appears in known-URefs with a granted rights set that is a
superset of the presented rights, and otherwise yields ForgedReference.
The code computes that superset test but discards its result, so a URef
whose address is known with READ rights only validates successfully even
when presented with READ_WRITE — contradicting the claim and the code's
own doc comment.  The theorem evaluates the code at that failing input:
validate_key accepts the key although the rights test (second conjunct) is
false, and the full write-path validation accepts a WRITE through a
READ-only grant; an address absent from known-URefs does still fail with
ForgedReference (final conjunct). -/
theorem validate_key_ignores_rights_bug :
    validate_key [(List.replicate 32 1, [READ])]
        (Key.uref (List.replicate 32 1) READ_WRITE) = .ok ()
    ∧ List.any [READ] (fun right => Nat.land right READ_WRITE == READ_WRITE) = false
    ∧ write_gs_validate [(List.replicate 32 1, [READ])]
        (Key.uref (List.replicate 32 1) WRITE) = .ok ()
    ∧ validate_key [] (Key.uref (List.replicate 32 1) READ_WRITE)
        = .error (.forgedReference (Key.uref (List.replicate 32 1) READ_WRITE)) := by
  decide

theorem charge_gas_eq (ctx : GasCtx) (amount : Nat) :
    charge_gas ctx amount =
      if ctx.gas_counter + amount ≤ U64_MAX ∧ ctx.gas_counter + amount ≤ ctx.gas_limit
      then (true, { ctx with gas_counter := ctx.gas_counter + amount })
      else (false, ctx) := by
  unfold charge_gas u64CheckedAdd
  by_cases h1 : ctx.gas_counter + amount ≤ U64_MAX
  · by_cases h2 : ctx.gas_counter + amount ≤ ctx.gas_limit
    · simp [h1, h2, Nat.not_lt.mpr h2]
    · simp [h1, h2, Nat.lt_of_not_le h2]
  · simp [h1]

/-- C6: a gas charge of n against counter c and limit L succeeds and sets
the counter to exactly c plus n when that sum neither overflows u64 nor
exceeds L; otherwise the call traps with GasLimit and the counter is left
unchanged. -/
theorem charge_gas_spec (ctx : GasCtx) (amount : Nat) :
    (ctx.gas_counter + amount ≤ U64_MAX ∧ ctx.gas_counter + amount ≤ ctx.gas_limit →
      gas ctx amount = .ok { ctx with gas_counter := ctx.gas_counter + amount })
    ∧ (U64_MAX < ctx.gas_counter + amount ∨ ctx.gas_limit < ctx.gas_counter + amount →
      gas ctx amount = .error .gasLimit ∧ charge_gas ctx amount = (false, ctx)) := by
  constructor
  · rintro ⟨h1, h2⟩
    unfold gas
    rw [charge_gas_eq, if_pos ⟨h1, h2⟩]
  · intro h
    have hneg : ¬(ctx.gas_counter + amount ≤ U64_MAX ∧
        ctx.gas_counter + amount ≤ ctx.gas_limit) := by
      rcases h with h | h
      · exact fun hc => absurd hc.1 (Nat.not_le.mpr h)
      · exact fun hc => absurd hc.2 (Nat.not_le.mpr h)
    refine ⟨?_, by rw [charge_gas_eq, if_neg hneg]⟩
    unfold gas
    rw [charge_gas_eq, if_neg hneg]

/-- Witness for charge_gas_spec: at limit 10 and counter 3, charging 4
succeeds with counter 7, and charging 9 traps with GasLimit. -/
theorem charge_gas_spec_witness :
    gas ⟨10, 3⟩ 4 = .ok ⟨10, 7⟩ ∧ gas ⟨10, 3⟩ 9 = .error .gasLimit :=
  ⟨(charge_gas_spec ⟨10, 3⟩ 4).1 (by decide),
   ((charge_gas_spec ⟨10, 3⟩ 9).2 (by decide)).1⟩

/-- C3: the claim states the deploy RNG seed is blake2b of account address,
little-endian block time and little-endian nonce, so deploys differing in
any of those obtain different seeds.  In the code the assembled buffer is
never fed into the hasher, so the seed is the Blake2b digest of the empty
input for every deploy: for any hash function (hence for Blake2b), any two
deploys obtain the same seed regardless of account address, block time and
nonce. -/
theorem create_rng_seed_constant (blake2b : List Nat → List Nat)
    (addr1 addr2 : List Nat) (time1 time2 nonce1 nonce2 : Nat) :
    create_rng_seed blake2b addr1 time1 nonce1
      = create_rng_seed blake2b addr2 time2 nonce2 := by
  rfl

/-- C5 counterexample: a child that records a write and spends gas, then
traps.  sub_call leaves the child's write in the parent's tracking copy —
the copy is shared, nothing is discarded — and leaves the parent's gas
counter at its pre-call value, the child's expense not being retained:
both halves of the claimed trap behaviour fail. -/
theorem sub_call_trap_keeps_effects_cex :
    (sub_call trapWriteChild
        { tc := [], known_urefs := [], base_key := Key.account (List.replicate 20 9),
          gas_limit := 100, gas_counter := 0 }
        (Key.hash (List.replicate 32 8)) [] []).2 = false
    ∧ (sub_call trapWriteChild
        { tc := [], known_urefs := [], base_key := Key.account (List.replicate 20 9),
          gas_limit := 100, gas_counter := 0 }
        (Key.hash (List.replicate 32 8)) [] []).1.tc
      = [(Key.hash (List.replicate 32 4), Transform.write (Value.int32 7))]
    ∧ (sub_call trapWriteChild
        { tc := [], known_urefs := [], base_key := Key.account (List.replicate 20 9),
          gas_limit := 100, gas_counter := 0 }
        (Key.hash (List.replicate 32 8)) [] []).1.gas_counter = 0 := by
  exact ⟨rfl, rfl, rfl⟩

/-- C5: corrected.  For every child execution and every sub-call, the
parent's tracking copy after sub_call is exactly the copy the child
finished with — parent and child share one copy, so the child's effects
persist on normal return, on ret and on trap alike — and the parent's
gas counter is unchanged from its pre-call value in every branch, the
child's expenditure never being written back. -/
theorem sub_call_shared_copy_and_gas
    (childExec : SubRuntimeCtx → SubRuntimeCtx × InvokeOutcome)
    (parent : SubRuntimeCtx) (key : Key) (refs extra_urefs : List Key) :
    (sub_call childExec parent key refs extra_urefs).1.tc
      = (childExec
          { tc := parent.tc
            known_urefs := vec_key_rights_to_map (refs ++ extra_urefs)
            base_key := key
            gas_limit := parent.gas_limit
            gas_counter := parent.gas_counter }).1.tc
    ∧ (sub_call childExec parent key refs extra_urefs).1.gas_counter
      = parent.gas_counter := by
  cases h : childExec
      { tc := parent.tc
        known_urefs := vec_key_rights_to_map (refs ++ extra_urefs)
        base_key := key
        gas_limit := parent.gas_limit
        gas_counter := parent.gas_counter } with
  | mk child_final outcome =>
    cases outcome <;> simp [sub_call, h]

/-- C7: confirmed.  For every deploy whose gates pass, whose payment
execution succeeds with no forced transfer due, and whose session
execution fails: the deploy result reports the session error with the
payment and finalize effects only and the summed payment and session
cost; the session fork is discarded — the finalize phase runs against
the post-payment copy, not the session's — and no forced transfer takes
place, check_forced_transfer having answered none. -/
theorem deploy_session_failure_reverts_fork (io : DeployIO)
    (tc0 : EffectMap) (rk mk : Key) (balance : Nat)
    (h1 : io.checkout = Except.ok (some tc0))
    (h2 : io.account_addr_valid = true)
    (h3 : io.get_account_ok = true)
    (h4 : io.can_authorize = true)
    (h5 : io.can_deploy_with = true)
    (h6 : io.session_module = Except.ok ())
    (h7 : io.protocol_data = Except.ok (some ()))
    (h8 : io.mint_contract = Except.ok ())
    (h9 : io.pos_contract = Except.ok ())
    (h10 : io.rewards_purse_balance_key = Except.ok rk)
    (h11 : io.main_purse_balance_key = Except.ok mk)
    (h12 : io.main_purse_balance = Except.ok balance)
    (h13 : MAX_PAYMENT ≤ balance)
    (h14 : io.payment_module = Except.ok ())
    (ptc pe : EffectMap) (pc : Nat)
    (hpay : io.payment_exec tc0 = ⟨ptc, ExecutionResult.success pe pc⟩)
    (ppb : Nat)
    (h15 : io.payment_purse_balance = Except.ok ppb)
    (h16 : pc * CONV_RATE ≤ ppb)
    (stc se : EffectMap) (serr : EngineError) (sc : Nat)
    (hses : io.session_exec ptc = ⟨stc, ExecutionResult.failure serr se sc⟩)
    (h17 : io.finalize_setup = Except.ok ())
    (ftc fe : EffectMap) (fc : Nat)
    (hfin : io.finalize_exec ptc = ⟨ftc, ExecutionResult.success fe fc⟩) :
    deploy io = Except.ok (ExecutionResult.failure serr (pe ++ fe) (pc + sc))
    ∧ check_forced_transfer (ExecutionResult.success pe pc) ppb = none := by
  have hbal : ¬ balance < MAX_PAYMENT := Nat.not_lt.mpr h13
  have hppb : ¬ ppb < pc * CONV_RATE := Nat.not_lt.mpr h16
  constructor
  · simp [deploy, h1, h2, h3, h4, h5, h6, h7, h8, h9, h10, h11, h12, hbal, h14,
      hpay, h15, check_forced_transfer, hppb, hses, ExecutionResult.is_failure,
      h17, hfin, build_result, ExecutionResult.cost, ExecutionResult.effect]
  · simp [check_forced_transfer, hppb]

/-- C7 witness: the pipeline evaluated at a concrete deploy whose session
phase fails. -/
theorem deploy_session_failure_reverts_fork_witness :
    deploy sessionFailIO
      = Except.ok (ExecutionResult.failure (EngineError.execFailure 65636)
          [(payKey, Transform.write (Value.int32 1)), (finKey, Transform.identity)] 5)
    ∧ check_forced_transfer
        (ExecutionResult.success [(payKey, Transform.write (Value.int32 1))] 2) 100
      = none :=
  deploy_session_failure_reverts_fork sessionFailIO [] (Key.hash (List.replicate 32 1))
    (Key.hash (List.replicate 32 2)) MAX_PAYMENT rfl rfl rfl rfl rfl rfl rfl rfl rfl rfl
    rfl rfl (Nat.le_refl MAX_PAYMENT) rfl
    [(payKey, Transform.write (Value.int32 1))]
    [(payKey, Transform.write (Value.int32 1))] 2 rfl
    100 rfl (by decide)
    [(payKey, Transform.write (Value.int32 1)), (sesKey, Transform.write (Value.int32 2))]
    [(sesKey, Transform.write (Value.int32 2))] (EngineError.execFailure 65636) 3 rfl rfl
    [(payKey, Transform.write (Value.int32 1)), (finKey, Transform.identity)]
    [(finKey, Transform.identity)] 1 rfl

/-- C8: confirmed.  For every deploy whose earlier gates pass and whose
account main-purse balance is strictly below MAX_PAYMENT, deploy stops
with the precondition failure InsufficientPayment — a failure with no
effects and zero cost, not the forced-transfer result — and the
conclusion holds for every payment, session and finalize executor the
environment may carry: payment code is never consulted. -/
theorem deploy_balance_floor (io : DeployIO)
    (tc0 : EffectMap) (rk mk : Key) (balance : Nat)
    (h1 : io.checkout = Except.ok (some tc0))
    (h2 : io.account_addr_valid = true)
    (h3 : io.get_account_ok = true)
    (h4 : io.can_authorize = true)
    (h5 : io.can_deploy_with = true)
    (h6 : io.session_module = Except.ok ())
    (h7 : io.protocol_data = Except.ok (some ()))
    (h8 : io.mint_contract = Except.ok ())
    (h9 : io.pos_contract = Except.ok ())
    (h10 : io.rewards_purse_balance_key = Except.ok rk)
    (h11 : io.main_purse_balance_key = Except.ok mk)
    (h12 : io.main_purse_balance = Except.ok balance)
    (h13 : balance < MAX_PAYMENT) :
    deploy io
      = Except.ok (ExecutionResult.precondition_failure EngineError.insufficientPayment) := by
  simp [deploy, h1, h2, h3, h4, h5, h6, h7, h8, h9, h10, h11, h12, h13]

/-- C8 witness: the pipeline evaluated at a concrete deploy whose account
balance is MAX_PAYMENT minus one. -/
theorem deploy_balance_floor_witness :
    MAX_PAYMENT - 1 < MAX_PAYMENT
    ∧ deploy lowBalanceIO
      = Except.ok (ExecutionResult.precondition_failure EngineError.insufficientPayment) :=
  ⟨by decide,
   deploy_balance_floor lowBalanceIO [] (Key.hash (List.replicate 32 1))
     (Key.hash (List.replicate 32 2)) (MAX_PAYMENT - 1) rfl rfl rfl rfl rfl rfl rfl rfl
     rfl rfl rfl rfl (by decide)⟩

/-- C9 counterexample: a major bump with no installer.  commit_upgrade
reports InvalidUpgradeConfig, yet the new ProtocolData is already
persisted — the store after the call answers the new version — against
the claimed write-after-validation order. -/
theorem commit_upgrade_persists_before_check_cex :
    (commit_upgrade [((1, 0, 0), 5)] (some ()) (1, 0, 0) (2, 0, 0) none none
        (Except.ok ()) UpgradeOutcome.success).2
      = Except.error EngineError.invalidUpgradeConfig
    ∧ lookupKey ((2, 0, 0) : ProtocolVersion)
        (commit_upgrade [((1, 0, 0), 5)] (some ()) (1, 0, 0) (2, 0, 0) none none
          (Except.ok ()) UpgradeOutcome.success).1
      = some 5 := by
  exact ⟨rfl, rfl⟩

/-- C9: corrected.  commit_upgrade checks version succession before any
write — an invalid succession yields InvalidProtocolVersion with the
protocol-data store unchanged — but the installer requirement is checked
only after put_protocol_data: a valid major bump with no installer
yields InvalidUpgradeConfig with the new ProtocolData already persisted,
the new version mapping to the configured wasm costs or, absent a
configured value, the current version's. -/
theorem commit_upgrade_validation_order (store : ProtocolDataStore)
    (current new : ProtocolVersion) (costs : Nat) (wc : Option Nat)
    (installer_run : Except EngineError Unit) (outcome : UpgradeOutcome)
    (hcur : lookupKey current store = some costs) :
    (check_next_version current new = VersionCheck.invalid →
      commit_upgrade store (some ()) current new wc none installer_run outcome
        = (store, Except.error EngineError.invalidProtocolVersion))
    ∧ (check_next_version current new = VersionCheck.validMajor →
      commit_upgrade store (some ()) current new wc none installer_run outcome
        = ((new, wc.getD costs) :: store,
            Except.error EngineError.invalidUpgradeConfig)) := by
  constructor
  · intro hinv
    simp [commit_upgrade, hcur, hinv]
  · intro hmaj
    simp [commit_upgrade, hcur, hmaj]

/-- C9 witness: the upgrade evaluated at a concrete store with a valid
major bump and no installer; both implications apply, the first
vacuously. -/
theorem commit_upgrade_validation_order_witness :
    lookupKey ((1, 0, 0) : ProtocolVersion) [((1, 0, 0), 5)] = some 5
    ∧ ((check_next_version (1, 0, 0) (2, 0, 0) = VersionCheck.invalid →
        commit_upgrade [((1, 0, 0), 5)] (some ()) (1, 0, 0) (2, 0, 0) none none
            (Except.ok ()) UpgradeOutcome.success
          = ([((1, 0, 0), 5)], Except.error EngineError.invalidProtocolVersion))
      ∧ (check_next_version (1, 0, 0) (2, 0, 0) = VersionCheck.validMajor →
        commit_upgrade [((1, 0, 0), 5)] (some ()) (1, 0, 0) (2, 0, 0) none none
            (Except.ok ()) UpgradeOutcome.success
          = (((2, 0, 0), 5) :: [((1, 0, 0), 5)],
              Except.error EngineError.invalidUpgradeConfig))) :=
  ⟨rfl,
   commit_upgrade_validation_order [((1, 0, 0), 5)] (1, 0, 0) (2, 0, 0) 5 none
     (Except.ok ()) UpgradeOutcome.success rfl⟩

end CasperLabs
